import Mathlib

/-!
# Verification of the multy-loader download core

This file gives a shallow embedding, in Lean 4, of the download-execution,
progress-bookkeeping and URL/metadata helpers of the multy-loader repository
(packages `config` and `downloader`, plus their use by the HTTP handlers),
and proves or refutes the frozen specification claims about them.

Modelling conventions:

* Go strings are byte strings.  Everywhere the code's behaviour depends on
  byte-level operations (percent-escaping, `strings.LastIndex`, UTF-8), we
  model a Go string as `GoStr := List Nat`, a list of byte values.  A Lean
  `String` is converted with `strBytes` (UTF-8 encoding, written out
  explicitly).  Where a function only threads strings through opaquely
  (identifiers, file names, error messages in the downloader), plain `String`
  is used.
* Effectful calls (filesystem, network, clock) are modelled by explicit
  environment records supplied to the embedded functions; each field of such
  a record is the result the corresponding OS / stdlib call would return.
* `float64` fields of `Progress` (`Percent`, `Speed`) are modelled in `Rat`.
  No theorem below depends on the value of a float computation: the only
  facts proved about these fields concern the literal assignments
  (`p.Percent = 100`) the code performs.
* Go `int64` is modelled as `Int` without wrap-around: no quantity in this
  code can overflow under its intended use, and no claim concerns overflow.
* The stdlib `net/url` functions used by `appendToken`,
  `extractFileNameFromURL` and `IsCivitaiURL` are modelled byte-for-byte
  after their documented semantics (splitting at the first `#` and `?`,
  percent-escape validation, query parse/encode with sorted keys, etc.).
  `urlParse` models the principal failure modes of Go's `url.Parse`:
  ASCII control characters, invalid percent-escapes outside the query
  component, a missing scheme (leading colon), and a non-numeric port.
-/

/-- A Go string: a list of byte values (each `< 256`). -/
abbrev GoStr := List Nat

/-- UTF-8 encoding of one Unicode scalar value, as byte values. -/
def utf8Bytes (c : Char) : List Nat :=
  let n := c.toNat
  if n < 0x80 then [n]
  else if n < 0x800 then [0xC0 + n / 64, 0x80 + n % 64]
  else if n < 0x10000 then [0xE0 + n / 4096, 0x80 + n / 64 % 64, 0x80 + n % 64]
  else [0xF0 + n / 0x40000, 0x80 + n / 4096 % 64, 0x80 + n / 64 % 64, 0x80 + n % 64]

/-- The bytes of a Lean string, i.e. of the corresponding Go string. -/
def strBytes (s : String) : GoStr :=
  s.data.flatMap utf8Bytes

/-- Every byte produced by `utf8Bytes` is an actual byte value. -/
theorem utf8Bytes_lt (c : Char) : ∀ b ∈ utf8Bytes c, b < 256 := by
  have h : c.toNat < 1114112 := by
    have hv := c.valid
    simp only [UInt32.isValidChar, Nat.isValidChar] at hv
    show c.val.toNat < 1114112
    omega
  intro b hb
  simp only [utf8Bytes] at hb
  split at hb
  · simp at hb; omega
  · split at hb
    · simp at hb; rcases hb with hb | hb <;> omega
    · split at hb
      · simp at hb; rcases hb with hb | hb | hb <;> omega
      · simp at hb; rcases hb with hb | hb | hb | hb <;> omega

theorem strBytes_lt (s : String) : ∀ b ∈ strBytes s, b < 256 := by
  intro b hb
  simp only [strBytes, List.mem_flatMap] at hb
  obtain ⟨c, _, hc⟩ := hb
  exact utf8Bytes_lt c b hc

/-! ## Generic byte-string helpers (mirroring the `strings` package) -/

/-- `strings.LastIndex(s, string(b))` for a single byte needle: the byte
index of the last occurrence of `b` in `s`, if any. -/
def lastIndexByte (b : Nat) : GoStr → Option Nat
  | [] => none
  | x :: xs =>
    match lastIndexByte b xs with
    | some i => some (i + 1)
    | none => if x = b then some 0 else none

/-- `bytes.Cut`: split at the first occurrence of byte `b`; returns the part
before, the part after, and whether `b` occurred. -/
def cutByte (b : Nat) : GoStr → GoStr × GoStr × Bool
  | [] => ([], [], false)
  | x :: xs =>
    if x = b then ([], xs, true)
    else
      let r := cutByte b xs
      (x :: r.1, r.2.1, r.2.2)

/-! ## `looksLikeID` (downloader.go lines 624-637)

The Go source:  strip everything from the last `.` (a byte-level
`strings.LastIndex`), then iterate over the remainder returning `false` on
the first non-digit, and finally return `len(name) > 0`.  The iteration is
over runes, but a decimal digit is a single-byte rune and any byte of a
multi-byte rune is `≥ 0x80`, hence not a digit either way, so the byte-level
model coincides with the rune-level loop. -/

def looksLikeID (name : GoStr) : Bool :=
  let name :=
    match lastIndexByte 46 name with
    | some idx => name.take idx
    | none => name
  -- for _, r := range name: if r < '0' || r > '9' return false
  if name.all (fun r => !(r < 48 || r > 57)) then
    name.length > 0
  else
    false

/-- The spec's wording, written independently of the code: remove the suffix
that starts at the last `.` (keep the whole name when no `.` occurs). -/
def specStripLastDot : GoStr → GoStr
  | [] => []
  | x :: xs =>
    if 46 ∈ xs then x :: specStripLastDot xs
    else if x = 46 then []
    else x :: xs

/-- The spec's predicate: after stripping, non-empty and all decimal digits. -/
def specLooksLikeID (name : GoStr) : Prop :=
  specStripLastDot name ≠ [] ∧ ∀ b ∈ specStripLastDot name, 48 ≤ b ∧ b ≤ 57

theorem lastIndexByte_none_iff (b : Nat) (l : GoStr) :
    lastIndexByte b l = none ↔ b ∉ l := by
  induction l with
  | nil => simp [lastIndexByte]
  | cons x xs ih =>
    simp only [lastIndexByte, List.mem_cons]
    cases h : lastIndexByte b xs with
    | some i =>
      rw [h] at ih
      have hmem : b ∈ xs := by
        by_contra hc
        exact absurd (ih.mpr hc) (by simp)
      simp [hmem]
    | none =>
      rw [h] at ih
      have hnot : b ∉ xs := ih.mp rfl
      by_cases hx : x = b
      · simp [hx]
      · have hbx : ¬b = x := fun h2 => hx h2.symm
        simp [hx, hnot, hbx]

/-- The code's strip (take up to the last dot) equals the spec's strip. -/
theorem stripGo_eq_stripSpec (name : GoStr) :
    (match lastIndexByte 46 name with
     | some idx => name.take idx
     | none => name) = specStripLastDot name := by
  induction name with
  | nil => simp [lastIndexByte, specStripLastDot]
  | cons x xs ih =>
    simp only [lastIndexByte, specStripLastDot]
    cases h : lastIndexByte 46 xs with
    | some i =>
      have hmem : (46 : Nat) ∈ xs := by
        by_contra hc
        rw [← lastIndexByte_none_iff] at hc
        rw [h] at hc; exact absurd hc (by simp)
      simp only [hmem, if_true, List.take_succ_cons]
      rw [h] at ih
      simp at ih
      rw [ih]
    | none =>
      have hmem : (46 : Nat) ∉ xs := (lastIndexByte_none_iff 46 xs).mp h
      simp only [hmem, if_false]
      by_cases hx : x = 46
      · simp [hx]
      · simp [hx]

/-- C8: `looksLikeID(name)` returns true exactly when, after removing the
suffix starting at the last dot (if any), the remaining string is non-empty
and consists only of decimal digit bytes. -/
theorem looksLikeID_correct (name : GoStr) :
    looksLikeID name = true ↔ specLooksLikeID name := by
  unfold looksLikeID specLooksLikeID
  rw [stripGo_eq_stripSpec]
  constructor
  · intro h
    by_cases hall : (specStripLastDot name).all (fun r => !(r < 48 || r > 57))
    · simp only [hall, if_true] at h
      refine ⟨?_, ?_⟩
      · intro hnil; rw [hnil] at h; simp at h
      · intro b hb
        have := List.all_eq_true.mp hall b hb
        simp at this
        omega
    · simp only [hall, if_false] at h
      exact absurd h (by simp)
  · rintro ⟨hne, hdig⟩
    have hall : (specStripLastDot name).all (fun r => !(r < 48 || r > 57)) = true := by
      rw [List.all_eq_true]
      intro b hb
      have := hdig b hb
      simp
      omega
    simp only [hall, if_true]
    simp only [decide_eq_true_eq]
    exact List.length_pos.mpr hne

/-! ## Percent-escaping (`net/url` query component)

`url.QueryEscape` leaves alphanumerics and `-_.~` alone, turns a space into
`+`, and writes every other byte as `%XX` with uppercase hex.  `unescapeCore`
models `url.unescape`: a `%` must be followed by two hex digits, otherwise
the whole unescape fails; in query mode `+` decodes to a space. -/

def isHexB (b : Nat) : Bool :=
  (48 ≤ b && b ≤ 57) || (97 ≤ b && b ≤ 102) || (65 ≤ b && b ≤ 70)

def hexValB (b : Nat) : Nat :=
  if b ≤ 57 then b - 48 else if 97 ≤ b then b - 87 else b - 55

/-- Byte of the uppercase hex digit for `n < 16`. -/
def upperHex (n : Nat) : Nat :=
  if n < 10 then 48 + n else 55 + n

/-- Bytes `url.QueryEscape` leaves unescaped: alphanumerics and `-_.~`. -/
def isUnreservedQ (b : Nat) : Bool :=
  (48 ≤ b && b ≤ 57) || (65 ≤ b && b ≤ 90) || (97 ≤ b && b ≤ 122) ||
    b == 45 || b == 95 || b == 46 || b == 126

/-- `url.QueryEscape` of a single byte. -/
def escapeQB (b : Nat) : GoStr :=
  if isUnreservedQ b then [b]
  else if b = 32 then [43]
  else [37, upperHex (b / 16), upperHex (b % 16)]

/-- `url.QueryEscape`. -/
def escapeQuery (s : GoStr) : GoStr := s.flatMap escapeQB

/-- `url.unescape`: `plus` selects the query component mode (`+` → space). -/
def unescapeCore (plus : Bool) : GoStr → Option GoStr
  | [] => some []
  | x :: rest =>
    if x = 37 then
      match rest with
      | a :: b :: rest2 =>
        if isHexB a && isHexB b then
          (unescapeCore plus rest2).map (fun t => (hexValB a * 16 + hexValB b) :: t)
        else none
      | _ => none
    else
      (unescapeCore plus rest).map (fun t => (if plus && x == 43 then 32 else x) :: t)

/-- `url.QueryUnescape`. -/
def unescapeQuery (s : GoStr) : Option GoStr := unescapeCore true s

/-- `url.PathUnescape` / path-mode `unescape` (no `+` conversion). -/
def unescapePath (s : GoStr) : Option GoStr := unescapeCore false s

theorem hexValB_upperHex (n : Nat) (h : n < 16) :
    hexValB (upperHex n) = n ∧ isHexB (upperHex n) = true := by
  interval_cases n <;> decide

/-- Bytes that are safe inside an encoded query: no delimiter of the URL
grammar (`# ? & = ;`), no `%` except as written by the escaper itself, and
no control byte.  Everything `escapeQB` emits satisfies `querySafe`. -/
def querySafe (b : Nat) : Bool :=
  isUnreservedQ b || b == 43 || b == 37 || isHexB b

theorem escapeQB_safe (b : Nat) (hb : b < 256) : ∀ x ∈ escapeQB b, querySafe x = true := by
  intro x hx
  unfold escapeQB at hx
  split at hx
  · next hu => simp at hx; subst hx; simp [querySafe, hu]
  · split at hx
    · simp at hx; subst hx; decide
    · simp at hx
      have h1 : b % 16 < 16 := Nat.mod_lt _ (by norm_num)
      rcases hx with hx | hx | hx
      · subst hx; decide
      · subst hx
        simp [querySafe, (hexValB_upperHex (b / 16) (by omega)).2]
      · subst hx
        simp [querySafe, (hexValB_upperHex (b % 16) (Nat.mod_lt _ (by norm_num))).2]

theorem querySafe_not_delim (b : Nat) (h : querySafe b = true) :
    b ≠ 35 ∧ b ≠ 63 ∧ b ≠ 38 ∧ b ≠ 61 ∧ b ≠ 59 ∧ 32 ≤ b ∧ b ≠ 127 := by
  simp [querySafe, isUnreservedQ, isHexB] at h
  omega

theorem unescapeCore_cons_ne37 (plus : Bool) (x : Nat) (hx : x ≠ 37) (t : GoStr) :
    unescapeCore plus (x :: t) =
      (unescapeCore plus t).map (fun r => (if plus && x == 43 then 32 else x) :: r) := by
  conv_lhs => unfold unescapeCore
  simp [hx]

theorem unescapeCore_cons_37 (plus : Bool) (a b : Nat) (t : GoStr)
    (h : (isHexB a && isHexB b) = true) :
    unescapeCore plus (37 :: a :: b :: t) =
      (unescapeCore plus t).map ((hexValB a * 16 + hexValB b) :: ·) := by
  conv_lhs => unfold unescapeCore
  simp [h]

/-- Unescaping undoes escaping, one byte at a time. -/
theorem unescapeCore_escapeQB (b : Nat) (hb : b < 256) (t : GoStr) :
    unescapeCore true (escapeQB b ++ t) = (unescapeCore true t).map (b :: ·) := by
  unfold escapeQB
  split
  · next hu =>
    have h37 : b ≠ 37 := by simp [isUnreservedQ] at hu; omega
    have h43 : b ≠ 43 := by simp [isUnreservedQ] at hu; omega
    rw [List.cons_append, List.nil_append, unescapeCore_cons_ne37 true b h37]
    simp [h43]
  · split
    · next hsp =>
      subst hsp
      rw [List.cons_append, List.nil_append, unescapeCore_cons_ne37 true 43 (by norm_num)]
      simp
    · have h1 := hexValB_upperHex (b / 16) (by omega)
      have h2 := hexValB_upperHex (b % 16) (Nat.mod_lt _ (by norm_num))
      simp only [List.cons_append, List.nil_append]
      rw [unescapeCore_cons_37 true _ _ t (by rw [h1.2, h2.2]; rfl)]
      rw [h1.1, h2.1]
      have hdm : b / 16 * 16 + b % 16 = b := by omega
      rw [hdm]

/-- C9 helper: `QueryUnescape` is a left inverse of `QueryEscape`. -/
theorem unescapeQuery_escapeQuery (s : GoStr) (hs : ∀ b ∈ s, b < 256) :
    unescapeQuery (escapeQuery s) = some s := by
  unfold unescapeQuery
  induction s with
  | nil => simp [escapeQuery, unescapeCore]
  | cons b rest ih =>
    have hb : b < 256 := hs b (by simp)
    have hrest : ∀ x ∈ rest, x < 256 := fun x hx => hs x (by simp [hx])
    simp only [escapeQuery, List.flatMap_cons]
    rw [unescapeCore_escapeQB b hb]
    rw [show rest.flatMap escapeQB = escapeQuery rest from rfl, ih hrest]
    rfl

/-! ## `net/url` model: parsing, query values, re-serialisation

`urlParse` models `url.Parse` on a byte string.  The components kept are the
ones `appendToken` / `String()` observe: everything before the query
(`pre`: scheme, authority and path, verbatim), the raw query, and the
fragment (verbatim).  `url.URL.String()` reproduces the original text of
scheme/host/path and fragment whenever their raw forms are valid
percent-encodings, which `urlParse` requires, so re-serialisation emits
`pre` and `frag` verbatim and only the query is re-encoded.  Failure modes
modelled (see the header comment): control characters, invalid
percent-escapes outside the query, a missing scheme and a non-numeric
port. -/

structure URL where
  pre : GoStr
  rawQuery : GoStr
  frag : GoStr
  deriving DecidableEq, Repr

def isCtlB (b : Nat) : Bool := b < 32 || b == 127

/-- Valid percent-escaping: every `%` is followed by two hex digits. -/
def validEscapes (s : GoStr) : Bool := (unescapeCore false s).isSome

def isAlphaB (b : Nat) : Bool := (65 ≤ b && b ≤ 90) || (97 ≤ b && b ≤ 122)

def isSchemeB (b : Nat) : Bool :=
  isAlphaB b || (48 ≤ b && b ≤ 57) || b == 43 || b == 45 || b == 46

/-- `getScheme`: strip a leading `scheme:` when the part before the first
colon is a well-formed scheme; returns the remainder and whether a scheme
was present. -/
def schemeSplit (s : GoStr) : GoStr × Bool :=
  let c := cutByte 58 s
  match c.1.head? with
  | some b =>
    if c.2.2 && isAlphaB b && c.1.all isSchemeB then (c.2.1, true) else (s, false)
  | none => (s, false)

/-- The authority-less remainder starts here: the `host[:port]` component
(after the userinfo `@`, following Go's `LastIndex`), or `[]` when the URL
has no `//authority`. -/
def hostPortOf (pre : GoStr) : GoStr :=
  let sp := schemeSplit pre
  if sp.1.take 2 = [47, 47] then
    let auth := (cutByte 47 (sp.1.drop 2)).1
    match lastIndexByte 64 auth with
    | some i => auth.drop (i + 1)
    | none => auth
  else []

/-- `validOptionalPort`: empty, or a colon followed by decimal digits. -/
def validOptionalPort (p : GoStr) : Bool :=
  match p with
  | [] => true
  | b :: rest => b == 58 && rest.all (fun d => 48 ≤ d && d ≤ 57)

/-- The port validation `url.Parse` performs on the host component. -/
def validHostPort (hp : GoStr) : Bool :=
  if hp.head? = some 91 then
    match lastIndexByte 93 hp with
    | none => false
    | some i => validOptionalPort (hp.drop (i + 1))
  else
    match lastIndexByte 58 hp with
    | none => true
    | some i => validOptionalPort (hp.drop i)

/-- `url.Parse`, reduced to the components used by the repository. -/
def urlParse (s : GoStr) : Option URL :=
  if s.any isCtlB then none
  else
    let ch := cutByte 35 s
    let cq := cutByte 63 ch.1
    let pre := cq.1
    if pre.head? = some 58 then none
    else if !validEscapes pre then none
    else if !validEscapes ch.2.1 then none
    else if !validHostPort (hostPortOf pre) then none
    else some ⟨pre, cq.2.1, ch.2.1⟩

/-- `url.URL.String()` for a URL produced by `urlParse` (scheme, authority
and path reproduced verbatim; `?` only with a non-empty raw query; `#` only
with a non-empty fragment). -/
def URL.toString (u : URL) : GoStr :=
  u.pre ++ (if u.rawQuery.isEmpty then [] else 63 :: u.rawQuery) ++
    (if u.frag.isEmpty then [] else 35 :: u.frag)

/-! ### `url.Values`: `ParseQuery`, `Set`, `Encode` -/

/-- `url.Values` as an association list in first-appearance order with
grouped values, as built by `ParseQuery`. -/
abbrev Values := List (GoStr × List GoStr)

/-- `m[key] = append(m[key], value)` on the association-list model. -/
def addValue (m : Values) (k v : GoStr) : Values :=
  match m with
  | [] => [(k, [v])]
  | e :: rest => if e.1 = k then (e.1, e.2 ++ [v]) :: rest else e :: addValue rest k v

theorem cutByte_rest_length (b : Nat) (s : GoStr) :
    (cutByte b s).2.1.length ≤ s.length := by
  induction s with
  | nil => simp [cutByte]
  | cons x xs ih =>
    simp only [cutByte]
    split
    · simp
    · simpa using Nat.le_succ_of_le ih

theorem cutByte_rest_length_cons (b x : Nat) (xs : GoStr) :
    (cutByte b (x :: xs)).2.1.length ≤ xs.length := by
  simp only [cutByte]
  split
  · simp
  · simpa using cutByte_rest_length b xs

/-- `strings.Split` at a single byte (structural recursion). -/
def splitOnByte (b : Nat) : GoStr → List GoStr
  | [] => [[]]
  | x :: xs =>
    if x = b then [] :: splitOnByte b xs
    else
      match splitOnByte b xs with
      | h :: t => (x :: h) :: t
      | [] => [[x]]

/-- One iteration of the `url.ParseQuery` loop applied to a `&`-segment:
skip segments containing `;`, skip empty segments, cut at `=`, unescape both
sides, skip the pair when either unescape fails. -/
def parseQuerySeg (m : Values) (seg : GoStr) : Values :=
  if 59 ∈ seg then m
  else if seg = [] then m
  else
    match unescapeQuery (cutByte 61 seg).1 with
    | none => m
    | some k =>
      match unescapeQuery (cutByte 61 seg).2.1 with
      | none => m
      | some v => addValue m k v

/-- `url.ParseQuery`.  The Go loop repeatedly `Cut`s the query at `&` while
it is non-empty; that visits exactly the segments `strings.Split` yields
(an empty trailing segment is skipped by the `key == ""` check either way,
and an empty query yields a single empty segment, also skipped). -/
def parseQuery (q : GoStr) : Values := (splitOnByte 38 q).foldl parseQuerySeg []

/-- `v.Set(key, value)`: the entry for `key` is replaced by the single
value.  (Position in the association list is irrelevant: `Encode` sorts.) -/
def valuesSet (m : Values) (k v : GoStr) : Values :=
  (m.filter (fun e => e.1 ≠ k)) ++ [(k, [v])]

/-- One `key=value` segment of an encoded query. -/
def encodePair (k v : GoStr) : GoStr := escapeQuery k ++ 61 :: escapeQuery v

/-- Join segments with `&`. -/
def joinAmp : List GoStr → GoStr
  | [] => []
  | s :: rest => s ++ (if rest.isEmpty then [] else 38 :: joinAmp rest)

/-- Key order used by `Encode` (`sort.Strings`, byte-wise lexicographic). -/
def lexLeB : GoStr → GoStr → Bool
  | [], _ => true
  | _ :: _, [] => false
  | a :: as2, b :: bs2 => if a < b then true else if b < a then false else lexLeB as2 bs2

/-- `Encode`: keys in sorted order, each value in list order. -/
def encodeValues (m : Values) : GoStr :=
  joinAmp ((m.insertionSort (fun e f => lexLeB e.1 f.1)).flatMap
    (fun e => e.2.map (encodePair e.1)))

/-- `appendToken` (downloader.go lines 514-529). -/
def appendToken (rawURL token : GoStr) : GoStr :=
  match urlParse rawURL with
  | none =>
    if 63 ∈ rawURL then rawURL ++ strBytes "&token=" ++ token
    else rawURL ++ strBytes "?token=" ++ token
  | some parsed =>
    let q := parseQuery parsed.rawQuery
    let q2 := valuesSet q (strBytes "token") token
    URL.toString { parsed with rawQuery := encodeValues q2 }

/-! ### Structural lemmas about `cutByte` and escaped output -/

theorem cutByte_not_mem {b : Nat} {s : GoStr} (h : b ∉ s) :
    cutByte b s = (s, [], false) := by
  induction s with
  | nil => rfl
  | cons x xs ih =>
    have hx : x ≠ b := fun he => h (he ▸ List.mem_cons_self x xs)
    have hxs : b ∉ xs := fun hm => h (List.mem_cons_of_mem x hm)
    simp [cutByte, hx, ih hxs]

theorem cutByte_append {b : Nat} {p q : GoStr} (h : b ∉ p) :
    cutByte b (p ++ b :: q) = (p, q, true) := by
  induction p with
  | nil => simp [cutByte]
  | cons x xs ih =>
    have hx : x ≠ b := fun he => h (he ▸ List.mem_cons_self x xs)
    have hxs : b ∉ xs := fun hm => h (List.mem_cons_of_mem x hm)
    simp [cutByte, hx, ih hxs]

theorem cutByte_before_not_mem (b : Nat) (s : GoStr) : b ∉ (cutByte b s).1 := by
  induction s with
  | nil => simp [cutByte]
  | cons x xs ih =>
    simp only [cutByte]
    split
    · simp
    · next hx =>
      simp only [List.mem_cons, not_or]
      exact ⟨fun he : b = x => hx he.symm, ih⟩

theorem cutByte_before_subset {b : Nat} {s : GoStr} :
    ∀ x ∈ (cutByte b s).1, x ∈ s := by
  induction s with
  | nil => simp [cutByte]
  | cons y ys ih =>
    simp only [cutByte]
    split
    · simp
    · intro x hx
      simp only [List.mem_cons] at hx ⊢
      rcases hx with hx | hx
      · exact Or.inl hx
      · exact Or.inr (ih x hx)

theorem cutByte_after_subset {b : Nat} {s : GoStr} :
    ∀ x ∈ (cutByte b s).2.1, x ∈ s := by
  induction s with
  | nil => simp [cutByte]
  | cons y ys ih =>
    simp only [cutByte]
    split
    · intro x hx; exact List.mem_cons_of_mem y hx
    · intro x hx; exact List.mem_cons_of_mem y (ih x hx)

/-- When the byte occurs, `cutByte` decomposes the string. -/
theorem cutByte_decomp {b : Nat} {s : GoStr} (h : (cutByte b s).2.2 = true) :
    s = (cutByte b s).1 ++ b :: (cutByte b s).2.1 := by
  induction s with
  | nil => simp [cutByte] at h
  | cons x xs ih =>
    by_cases hx : x = b
    · simp [cutByte, hx]
    · simp only [cutByte, hx, if_false] at h ⊢
      simpa using ih h

theorem cutByte_not_found {b : Nat} {s : GoStr} (h : (cutByte b s).2.2 = false) :
    (cutByte b s).1 = s ∧ (cutByte b s).2.1 = [] := by
  induction s with
  | nil => simp [cutByte]
  | cons x xs ih =>
    by_cases hx : x = b
    · simp [cutByte, hx] at h
    · simp only [cutByte, hx, if_false] at h ⊢
      simp [ih h]

theorem escapeQuery_safe {s : GoStr} (hs : ∀ b ∈ s, b < 256) :
    ∀ x ∈ escapeQuery s, querySafe x = true := by
  intro x hx
  simp only [escapeQuery, List.mem_flatMap] at hx
  obtain ⟨b, hb, hxb⟩ := hx
  exact escapeQB_safe b (hs b hb) x hxb

theorem hexValB_le (b : Nat) (h : isHexB b = true) : hexValB b ≤ 15 := by
  simp [isHexB] at h
  unfold hexValB
  split
  · omega
  · split <;> omega

/-- Unescaping maps byte strings to byte strings. -/
theorem unescapeCore_bytes {plus : Bool} {s t : GoStr}
    (h : unescapeCore plus s = some t) (hs : ∀ b ∈ s, b < 256) :
    ∀ b ∈ t, b < 256 := by
  induction s using unescapeCore.induct plus generalizing t with
  | case1 =>
    unfold unescapeCore at h
    cases h
    simp
  | case2 a b2 rest2 hhex ih =>
    rw [unescapeCore_cons_37 plus a b2 rest2 hhex] at h
    cases ht2 : unescapeCore plus rest2 with
    | none => rw [ht2] at h; simp at h
    | some t2 =>
      rw [ht2] at h
      simp at h
      subst h
      intro b hb
      simp only [List.mem_cons] at hb
      rcases hb with hb | hb
      · have h1 := hexValB_le a (by simp at hhex; exact hhex.1)
        have h2 := hexValB_le b2 (by simp at hhex; exact hhex.2)
        omega
      · exact ih ht2 (fun c hc => hs c (by simp [hc])) b hb
  | case3 a b2 rest2 hhex =>
    conv at h => lhs; unfold unescapeCore
    simp [hhex] at h
  | case4 xs hshape =>
    conv at h => lhs; unfold unescapeCore
    simp only [if_true, eq_self_iff_true] at h
    have : False := by
      rcases xs with _ | ⟨a, _ | ⟨b2, r2⟩⟩
      · simp at h
      · simp at h
      · exact absurd rfl (hshape a b2 r2)
    exact this.elim
  | case5 x rest hx ih =>
    rw [unescapeCore_cons_ne37 plus x hx] at h
    cases ht2 : unescapeCore plus rest with
    | none => rw [ht2] at h; simp at h
    | some t2 =>
      rw [ht2] at h
      simp at h
      subst h
      intro b hb
      simp only [List.mem_cons] at hb
      rcases hb with hb | hb
      · split at hb
        · omega
        · exact hb ▸ hs x (by simp)
      · exact ih ht2 (fun c hc => hs c (by simp [hc])) b hb

/-! ### Round trip: `ParseQuery ∘ Encode` -/

/-- The encoded segment for one key/value pair. -/
def encodeSeg (p : GoStr × GoStr) : GoStr := encodePair p.1 p.2

/-- The (key, value) pairs an entry list denotes, in order. -/
def segsOf (l : Values) : List (GoStr × GoStr) :=
  l.flatMap (fun e => e.2.map (fun v => (e.1, v)))

def foldSegs (m : Values) (segs : List (GoStr × GoStr)) : Values :=
  segs.foldl (fun acc p => addValue acc p.1 p.2) m

/-- Byte strings whose pairs can round-trip. -/
def goodSeg (p : GoStr × GoStr) : Prop :=
  (∀ b ∈ p.1, b < 256) ∧ ∀ b ∈ p.2, b < 256

theorem encodeSeg_safe {p : GoStr × GoStr} (hp : goodSeg p) :
    ∀ x ∈ encodeSeg p, querySafe x = true ∨ x = 61 := by
  intro x hx
  simp only [encodeSeg, encodePair, List.mem_append, List.mem_cons] at hx
  rcases hx with hx | hx | hx
  · exact Or.inl (escapeQuery_safe hp.1 x hx)
  · exact Or.inr hx
  · exact Or.inl (escapeQuery_safe hp.2 x hx)

theorem encodeSeg_ne_nil (p : GoStr × GoStr) : encodeSeg p ≠ [] := by
  simp only [encodeSeg, encodePair]
  intro h
  have : (61 : Nat) ∈ (escapeQuery p.1 ++ 61 :: escapeQuery p.2) := by simp
  rw [h] at this
  simp at this

theorem encodeSeg_no38 {p : GoStr × GoStr} (hp : goodSeg p) : 38 ∉ encodeSeg p := by
  intro h
  rcases encodeSeg_safe hp 38 h with h2 | h2
  · exact absurd (querySafe_not_delim 38 h2).2.2.1 (by simp)
  · simp at h2

theorem encodeSeg_no59 {p : GoStr × GoStr} (hp : goodSeg p) : 59 ∉ encodeSeg p := by
  intro h
  rcases encodeSeg_safe hp 59 h with h2 | h2
  · exact absurd (querySafe_not_delim 59 h2).2.2.2.2.1 (by simp)
  · simp at h2

theorem escapeQuery_no61 {s : GoStr} (hs : ∀ b ∈ s, b < 256) : 61 ∉ escapeQuery s := by
  intro h
  exact absurd (querySafe_not_delim 61 (escapeQuery_safe hs 61 h)).2.2.2.1 (by simp)

/-- Processing one well-formed encoded segment adds exactly its pair. -/
theorem parseQuerySeg_encodeSeg {p : GoStr × GoStr} (hp : goodSeg p) (m : Values) :
    parseQuerySeg m (encodeSeg p) = addValue m p.1 p.2 := by
  unfold parseQuerySeg
  rw [if_neg (encodeSeg_no59 hp), if_neg (encodeSeg_ne_nil p)]
  have hcut : cutByte 61 (encodeSeg p) = (escapeQuery p.1, escapeQuery p.2, true) := by
    simpa [encodeSeg, encodePair] using cutByte_append (escapeQuery_no61 hp.1)
  rw [hcut]
  simp only
  rw [unescapeQuery_escapeQuery p.1 hp.1, unescapeQuery_escapeQuery p.2 hp.2]

theorem splitOnByte_not_mem {b : Nat} {s : GoStr} (h : b ∉ s) :
    splitOnByte b s = [s] := by
  induction s with
  | nil => rfl
  | cons x xs ih =>
    have hx : x ≠ b := fun he => h (he ▸ List.mem_cons_self x xs)
    have hxs : b ∉ xs := fun hm => h (List.mem_cons_of_mem x hm)
    simp [splitOnByte, hx, ih hxs]

theorem splitOnByte_append {b : Nat} {p : GoStr} (hp : b ∉ p) (q : GoStr) :
    splitOnByte b (p ++ b :: q) = p :: splitOnByte b q := by
  induction p with
  | nil => simp [splitOnByte]
  | cons x xs ih =>
    have hx : x ≠ b := fun he => hp (he ▸ List.mem_cons_self x xs)
    have hxs : b ∉ xs := fun hm => hp (List.mem_cons_of_mem x hm)
    have hih := ih hxs
    rw [List.cons_append]
    conv_lhs => unfold splitOnByte
    rw [if_neg hx, hih]

theorem splitOnByte_subset {b : Nat} {s : GoStr} :
    ∀ part ∈ splitOnByte b s, ∀ x ∈ part, x ∈ s := by
  induction s with
  | nil =>
    intro part hp
    simp only [splitOnByte, List.mem_singleton] at hp
    subst hp
    simp
  | cons y ys ih =>
    intro part hp x hx
    simp only [splitOnByte] at hp
    split at hp
    · rcases List.mem_cons.mp hp with hp | hp
      · subst hp; simp at hx
      · exact List.mem_cons_of_mem y (ih part hp x hx)
    · rcases hsp : splitOnByte b ys with _ | ⟨h2, t2⟩
      · rw [hsp] at hp
        simp only [List.mem_singleton] at hp
        subst hp
        simp only [List.mem_singleton] at hx
        subst hx
        simp
      · rw [hsp] at hp
        rcases List.mem_cons.mp hp with hp | hp
        · subst hp
          rcases List.mem_cons.mp hx with hx | hx
          · subst hx; simp
          · have : h2 ∈ splitOnByte b ys := by rw [hsp]; simp
            exact List.mem_cons_of_mem y (ih h2 this x hx)
        · have : part ∈ splitOnByte b ys := by rw [hsp]; simp [hp]
          exact List.mem_cons_of_mem y (ih part this x hx)

/-- Splitting the joined segments recovers them (each segment is `&`-free
and non-empty). -/
theorem splitOnByte_joinAmp_segs (segs : List (GoStr × GoStr))
    (hgood : ∀ p ∈ segs, goodSeg p) (hne : segs ≠ []) :
    splitOnByte 38 (joinAmp (segs.map encodeSeg)) = segs.map encodeSeg := by
  induction segs with
  | nil => exact absurd rfl hne
  | cons p rest ih =>
    have hp : goodSeg p := hgood p (by simp)
    have hrest : ∀ q ∈ rest, goodSeg q := fun q hq => hgood q (by simp [hq])
    cases rest with
    | nil =>
      have hj : joinAmp (List.map encodeSeg [p]) = encodeSeg p := by
        simp [joinAmp]
      rw [hj]
      exact splitOnByte_not_mem (encodeSeg_no38 hp)
    | cons q rest2 =>
      have hj : joinAmp (List.map encodeSeg (p :: q :: rest2)) =
          encodeSeg p ++ 38 :: joinAmp (List.map encodeSeg (q :: rest2)) := by
        simp [joinAmp]
      rw [hj, splitOnByte_append (encodeSeg_no38 hp)]
      rw [ih hrest (by simp)]
      rfl

/-- Lemma A: parsing a joined list of well-formed encoded segments folds
their pairs into the accumulator, in order. -/
theorem parseQuery_joinAmp (segs : List (GoStr × GoStr))
    (hgood : ∀ p ∈ segs, goodSeg p) :
    parseQuery (joinAmp (segs.map encodeSeg)) = foldSegs [] segs := by
  have hfold : ∀ (segs2 : List (GoStr × GoStr)) (m : Values), (∀ p ∈ segs2, goodSeg p) →
      (segs2.map encodeSeg).foldl parseQuerySeg m = foldSegs m segs2 := by
    intro segs2
    induction segs2 with
    | nil => intro m _; simp [foldSegs]
    | cons p rest ih =>
      intro m hg
      simp only [List.map_cons, List.foldl_cons]
      rw [parseQuerySeg_encodeSeg (hg p (by simp))]
      rw [ih _ (fun q hq => hg q (by simp [hq]))]
      simp [foldSegs]
  cases hs : segs with
  | nil => simp [joinAmp, parseQuery, splitOnByte, parseQuerySeg, foldSegs]
  | cons p rest =>
    unfold parseQuery
    rw [← hs, splitOnByte_joinAmp_segs segs hgood (by rw [hs]; simp)]
    exact hfold segs [] hgood

theorem addValue_not_mem {m : Values} {k : GoStr} (hk : k ∉ m.map Prod.fst)
    (v : GoStr) : addValue m k v = m ++ [(k, [v])] := by
  induction m with
  | nil => rfl
  | cons e rest ih =>
    have hek : e.1 ≠ k := by
      intro he; exact hk (by simp [← he])
    have hkr : k ∉ rest.map Prod.fst := fun hm => hk (by simp [hm])
    simp [addValue, hek, ih hkr]

theorem addValue_last {m : Values} {k : GoStr} (hk : k ∉ m.map Prod.fst)
    (acc : List GoStr) (v : GoStr) :
    addValue (m ++ [(k, acc)]) k v = m ++ [(k, acc ++ [v])] := by
  induction m with
  | nil => simp [addValue]
  | cons e rest ih =>
    have hek : e.1 ≠ k := by
      intro he; exact hk (by simp [← he])
    have hkr : k ∉ rest.map Prod.fst := fun hm => hk (by simp [hm])
    simp [addValue, hek, ih hkr]

theorem foldSegs_same_key {m : Values} {k : GoStr} (hk : k ∉ m.map Prod.fst)
    (acc : List GoStr) (vs : List GoStr) :
    foldSegs (m ++ [(k, acc)]) (vs.map (fun v => (k, v))) = m ++ [(k, acc ++ vs)] := by
  induction vs generalizing acc with
  | nil => simp [foldSegs]
  | cons v vs2 ih =>
    simp only [List.map_cons, foldSegs, List.foldl_cons]
    rw [show (addValue (m ++ [(k, acc)]) k v) = m ++ [(k, acc ++ [v])] from addValue_last hk acc v]
    have := ih (acc ++ [v])
    simp only [foldSegs] at this
    rw [this, List.append_assoc]
    simp

theorem foldSegs_append (m : Values) (s1 s2 : List (GoStr × GoStr)) :
    foldSegs m (s1 ++ s2) = foldSegs (foldSegs m s1) s2 := by
  simp [foldSegs, List.foldl_append]

/-- Lemma B: folding the segments of a grouped list with fresh, distinct
keys and non-empty value groups appends the list to the accumulator. -/
theorem foldSegs_segsOf (l : Values) (m : Values)
    (hdisj : ∀ e ∈ l, e.1 ∉ m.map Prod.fst)
    (hnodup : (l.map Prod.fst).Nodup)
    (hne : ∀ e ∈ l, e.2 ≠ []) :
    foldSegs m (segsOf l) = m ++ l := by
  induction l generalizing m with
  | nil => simp [segsOf, foldSegs]
  | cons e rest ih =>
    obtain ⟨k, vs⟩ := e
    obtain ⟨v, vs2, hvv⟩ : ∃ v vs2, vs = v :: vs2 := by
      cases hv : vs with
      | nil => exact absurd (hv ▸ hne (k, vs) (by simp)) (by simp)
      | cons v vs2 => exact ⟨v, vs2, rfl⟩
    subst hvv
    have hkm : k ∉ m.map Prod.fst := hdisj (k, v :: vs2) (by simp)
    simp only [segsOf, List.flatMap_cons]
    rw [show ((k, v :: vs2).2.map (fun w => ((k, v :: vs2).1, w))) =
        (k, v) :: vs2.map (fun w => (k, w)) from rfl]
    rw [show ((k, v) :: vs2.map (fun w => (k, w))) ++ rest.flatMap (fun e => e.2.map (fun w => (e.1, w))) =
        ((k, v) :: vs2.map (fun w => (k, w))) ++ segsOf rest from rfl]
    rw [foldSegs_append]
    have hstep1 : foldSegs m ((k, v) :: vs2.map (fun w => (k, w))) = m ++ [(k, v :: vs2)] := by
      simp only [foldSegs, List.foldl_cons]
      rw [show addValue m k v = m ++ [(k, [v])] from addValue_not_mem hkm v]
      have := foldSegs_same_key hkm [v] vs2
      simp only [foldSegs] at this
      simpa using this
    rw [hstep1]
    have hrestkeys : (rest.map Prod.fst).Nodup := (List.nodup_cons.mp hnodup).2
    have hknotrest : k ∉ rest.map Prod.fst := by
      have := (List.nodup_cons.mp hnodup).1
      simpa using this
    have hdisj2 : ∀ e ∈ rest, e.1 ∉ (m ++ [(k, v :: vs2)]).map Prod.fst := by
      intro e he hmem
      rw [List.map_append] at hmem
      rcases List.mem_append.mp hmem with hmem | hmem
      · exact hdisj e (by simp [he]) hmem
      · simp only [List.map_cons, List.map_nil, List.mem_singleton] at hmem
        exact hknotrest (hmem ▸ List.mem_map_of_mem Prod.fst he)
    rw [ih (m ++ [(k, v :: vs2)]) hdisj2 hrestkeys (fun e he => hne e (by simp [he]))]
    simp

/-! ### Sorting: the encode order is total, transitive, and sorted lists of
entries with distinct keys are unique up to permutation. -/

theorem lexLeB_total (a b : GoStr) : lexLeB a b = true ∨ lexLeB b a = true := by
  induction a generalizing b with
  | nil => left; rfl
  | cons x xs ih =>
    cases b with
    | nil => right; rfl
    | cons y ys =>
      by_cases hxy : x < y
      · left; simp only [lexLeB]; rw [if_pos hxy]
      · by_cases hyx : y < x
        · right; simp only [lexLeB]; rw [if_pos hyx]
        · have hxyeq : x = y := by omega
          subst hxyeq
          rcases ih ys with h | h
          · left; simp only [lexLeB]
            rw [if_neg (lt_irrefl x), if_neg (lt_irrefl x)]; exact h
          · right; simp only [lexLeB]
            rw [if_neg (lt_irrefl x), if_neg (lt_irrefl x)]; exact h

theorem lexLeB_trans {a b c : GoStr} (h1 : lexLeB a b = true) (h2 : lexLeB b c = true) :
    lexLeB a c = true := by
  induction a generalizing b c with
  | nil => rfl
  | cons x xs ih =>
    cases b with
    | nil => simp [lexLeB] at h1
    | cons y ys =>
      cases c with
      | nil => simp [lexLeB] at h2
      | cons z zs =>
        simp only [lexLeB] at h1 h2 ⊢
        by_cases hxy : x < y
        · have hyz : y ≤ z := by
            by_contra hc
            push_neg at hc
            rw [if_neg (by omega), if_pos (by omega)] at h2
            exact absurd h2 (by simp)
          rw [if_pos (by omega)]
        · by_cases hyx : y < x
          · rw [if_neg hxy, if_pos hyx] at h1
            exact absurd h1 (by simp)
          · have hxyeq : x = y := by omega
            subst hxyeq
            rw [if_neg (lt_irrefl x), if_neg (lt_irrefl x)] at h1
            by_cases hxz : x < z
            · rw [if_pos hxz]
            · by_cases hzx : z < x
              · rw [if_neg (by omega), if_pos hzx] at h2
                exact absurd h2 (by simp)
              · have hxzeq : x = z := by omega
                subst hxzeq
                rw [if_neg (lt_irrefl x), if_neg (lt_irrefl x)] at h2
                rw [if_neg (lt_irrefl x), if_neg (lt_irrefl x)]
                exact ih h1 h2

theorem lexLeB_antisymm {a b : GoStr} (h1 : lexLeB a b = true) (h2 : lexLeB b a = true) :
    a = b := by
  induction a generalizing b with
  | nil =>
    cases b with
    | nil => rfl
    | cons y ys => simp [lexLeB] at h2
  | cons x xs ih =>
    cases b with
    | nil => simp [lexLeB] at h1
    | cons y ys =>
      simp only [lexLeB] at h1 h2
      by_cases hxy : x < y
      · rw [if_neg (by omega), if_pos hxy] at h2
        exact absurd h2 (by simp)
      · by_cases hyx : y < x
        · rw [if_neg hxy, if_pos hyx] at h1
          exact absurd h1 (by simp)
        · have hxyeq : x = y := by omega
          subst hxyeq
          rw [if_neg (lt_irrefl x), if_neg (lt_irrefl x)] at h1
          rw [if_neg (lt_irrefl x), if_neg (lt_irrefl x)] at h2
          rw [ih h1 h2]

/-- Two permuted lists of entries, both sorted by key, with distinct keys,
are equal. -/
theorem sorted_nodupkeys_eq (l1 l2 : Values) (hp : l1.Perm l2)
    (hs1 : l1.Pairwise (fun e f => lexLeB e.1 f.1 = true))
    (hs2 : l2.Pairwise (fun e f => lexLeB e.1 f.1 = true))
    (hn : (l1.map Prod.fst).Nodup) : l1 = l2 := by
  induction l1 generalizing l2 with
  | nil => exact (List.Perm.nil_eq hp).symm ▸ rfl
  | cons a t1 ih =>
    cases l2 with
    | nil => exact absurd hp.symm (by simp)
    | cons b t2 =>
      have hab : a = b := by
        have hain : a ∈ b :: t2 := hp.mem_iff.mp (by simp)
        rcases List.mem_cons.mp hain with h | hat2
        · exact h
        · have hbin : b ∈ a :: t1 := hp.symm.mem_iff.mp (by simp)
          rcases List.mem_cons.mp hbin with h | hbt1
          · exact h.symm
          · have h1 : lexLeB a.1 b.1 = true :=
              (List.pairwise_cons.mp hs1).1 b hbt1
            have h2 : lexLeB b.1 a.1 = true :=
              (List.pairwise_cons.mp hs2).1 a hat2
            have hkey : a.1 = b.1 := lexLeB_antisymm h1 h2
            have hdup : a.1 ∈ t1.map Prod.fst :=
              hkey ▸ List.mem_map_of_mem Prod.fst hbt1
            exact absurd hdup (List.nodup_cons.mp hn).1
      subst hab
      have hpt : t1.Perm t2 := hp.cons_inv
      rw [ih t2 hpt (List.pairwise_cons.mp hs1).2 (List.pairwise_cons.mp hs2).2
        (by simpa using (List.nodup_cons.mp hn).2)]

/-- The sort `Encode` performs. -/
def sortPairs (m : Values) : Values :=
  m.insertionSort (fun e f => lexLeB e.1 f.1)

theorem encodeValues_eq_segs (m : Values) :
    encodeValues m = joinAmp ((segsOf (sortPairs m)).map encodeSeg) := by
  unfold encodeValues sortPairs segsOf
  congr 1
  rw [List.map_flatMap]
  congr 1
  funext e
  rw [List.map_map]
  rfl

theorem sortPairs_perm (m : Values) : (sortPairs m).Perm m :=
  List.perm_insertionSort _ m

theorem sortPairs_sorted (m : Values) :
    (sortPairs m).Pairwise (fun e f => lexLeB e.1 f.1 = true) := by
  haveI : IsTotal (GoStr × List GoStr) (fun e f => lexLeB e.1 f.1 = true) :=
    ⟨fun a b => lexLeB_total a.1 b.1⟩
  haveI : IsTrans (GoStr × List GoStr) (fun e f => lexLeB e.1 f.1 = true) :=
    ⟨fun _ _ _ h1 h2 => lexLeB_trans h1 h2⟩
  exact List.sorted_insertionSort _ m

/-- The three invariants of a well-formed `url.Values`. -/
def ValuesInv (m : Values) : Prop :=
  (m.map Prod.fst).Nodup ∧ (∀ e ∈ m, e.2 ≠ []) ∧
    ∀ e ∈ m, (∀ b ∈ e.1, b < 256) ∧ ∀ v ∈ e.2, ∀ b ∈ v, b < 256

theorem addValue_keys (m : Values) (k v : GoStr) :
    (addValue m k v).map Prod.fst =
      if k ∈ m.map Prod.fst then m.map Prod.fst else m.map Prod.fst ++ [k] := by
  induction m with
  | nil => simp [addValue]
  | cons e rest ih =>
    by_cases hek : e.1 = k
    · simp [addValue, hek]
    · have hke : ¬ k = e.1 := fun h => hek h.symm
      simp only [addValue, hek, if_false, List.map_cons, List.mem_cons]
      by_cases hkr : k ∈ rest.map Prod.fst
      · simp [ih, hkr, hke]
      · simp [ih, hkr, hke]

theorem addValue_mem {m : Values} {k v : GoStr} :
    ∀ e ∈ addValue m k v,
      e ∈ m ∨ (∃ vs, (k, vs) ∈ m ∧ e = (k, vs ++ [v])) ∨ e = (k, [v]) := by
  induction m with
  | nil => simp [addValue]
  | cons f rest ih =>
    intro e he
    by_cases hfk : f.1 = k
    · simp only [addValue, hfk, if_true] at he
      rcases List.mem_cons.mp he with he | he
      · right; left
        exact ⟨f.2, by simp [← hfk, he]⟩
      · left; exact List.mem_cons_of_mem f he
    · simp only [addValue, hfk, if_false] at he
      rcases List.mem_cons.mp he with he | he
      · left; exact he ▸ List.mem_cons_self f rest
      · rcases ih e he with h | ⟨vs, hv1, hv2⟩ | h
        · left; exact List.mem_cons_of_mem f h
        · right; left; exact ⟨vs, List.mem_cons_of_mem f hv1, hv2⟩
        · right; right; exact h

theorem addValue_inv {m : Values} (hm : ValuesInv m) {k v : GoStr}
    (hk : ∀ b ∈ k, b < 256) (hv : ∀ b ∈ v, b < 256) :
    ValuesInv (addValue m k v) := by
  obtain ⟨hnodup, hne, hbytes⟩ := hm
  refine ⟨?_, ?_, ?_⟩
  · rw [addValue_keys]
    split
    · exact hnodup
    · next hknot =>
      rw [List.nodup_append]
      exact ⟨hnodup, List.nodup_singleton k, by simpa using hknot⟩
  · intro e he
    rcases addValue_mem e he with h | ⟨vs, _, hv2⟩ | h
    · exact hne e h
    · subst hv2; simp
    · subst h; simp
  · intro e he
    rcases addValue_mem e he with h | ⟨vs, hv1, hv2⟩ | h
    · exact hbytes e h
    · subst hv2
      refine ⟨hk, ?_⟩
      intro w hw b hb
      rcases List.mem_append.mp hw with hw | hw
      · exact (hbytes (k, vs) hv1).2 w hw b hb
      · rw [List.mem_singleton.mp hw] at hb
        exact hv b hb
    · subst h
      refine ⟨hk, ?_⟩
      intro w hw b hb
      rw [List.mem_singleton.mp hw] at hb
      exact hv b hb

/-- One parse step preserves the value-map invariants. -/
theorem parseQuerySeg_inv {m : Values} (hm : ValuesInv m) {seg : GoStr}
    (hseg : ∀ b ∈ seg, b < 256) : ValuesInv (parseQuerySeg m seg) := by
  unfold parseQuerySeg
  split
  · exact hm
  · split
    · exact hm
    · cases hk : unescapeQuery (cutByte 61 seg).1 with
      | none => exact hm
      | some k =>
        cases hv : unescapeQuery (cutByte 61 seg).2.1 with
        | none => exact hm
        | some v =>
          exact addValue_inv hm
            (unescapeCore_bytes hk (fun b hb => hseg b (cutByte_before_subset b hb)))
            (unescapeCore_bytes hv (fun b hb => hseg b (cutByte_after_subset b hb)))

/-- `ParseQuery` always yields a well-formed value map. -/
theorem parseQuery_inv (q : GoStr) (hq : ∀ b ∈ q, b < 256) :
    ValuesInv (parseQuery q) := by
  unfold parseQuery
  have hparts : ∀ part ∈ splitOnByte 38 q, ∀ b ∈ part, b < 256 :=
    fun part hp b hb => hq b (splitOnByte_subset part hp b hb)
  have hgen : ∀ (parts : List GoStr), (∀ part ∈ parts, ∀ b ∈ part, b < 256) →
      ∀ (m : Values), ValuesInv m → ValuesInv (parts.foldl parseQuerySeg m) := by
    intro parts
    induction parts with
    | nil => intro _ m hm; exact hm
    | cons part rest ih =>
      intro hps m hm
      simp only [List.foldl_cons]
      exact ih (fun pp hpp b hb => hps pp (by simp [hpp]) b hb) (parseQuerySeg m part)
        (parseQuerySeg_inv hm (fun b hb => hps part (by simp) b hb))
  exact hgen _ hparts [] ⟨by simp, by simp, by simp⟩

theorem valuesSet_inv {m : Values} (hm : ValuesInv m) {k v : GoStr}
    (hk : ∀ b ∈ k, b < 256) (hv : ∀ b ∈ v, b < 256) :
    ValuesInv (valuesSet m k v) := by
  obtain ⟨hnodup, hne, hbytes⟩ := hm
  have hsub : ∀ e ∈ m.filter (fun e => e.1 ≠ k), e ∈ m :=
    fun e he => List.mem_of_mem_filter he
  refine ⟨?_, ?_, ?_⟩
  · unfold valuesSet
    rw [List.map_append, List.nodup_append]
    refine ⟨?_, by simp, ?_⟩
    · exact (List.Sublist.map Prod.fst (List.filter_sublist m)).nodup hnodup
    · intro a ha
      simp only [List.map_cons, List.map_nil, List.mem_singleton]
      intro hak
      simp only [List.mem_map] at ha
      obtain ⟨e, he, hea⟩ := ha
      have := List.of_mem_filter he
      rw [hea, hak] at this
      simp at this
  · intro e he
    rcases List.mem_append.mp he with he | he
    · exact hne e (hsub e he)
    · rw [List.mem_singleton.mp he]; simp
  · intro e he
    rcases List.mem_append.mp he with he | he
    · exact hbytes e (hsub e he)
    · rw [List.mem_singleton.mp he]
      refine ⟨hk, ?_⟩
      intro w hw b hb
      rw [List.mem_singleton.mp hw] at hb
      exact hv b hb

/-- `ParseQuery (Encode m)` returns the entries of `m` in `Encode`'s sorted
order. -/
theorem parseQuery_encodeValues (m : Values) (hm : ValuesInv m) :
    parseQuery (encodeValues m) = sortPairs m := by
  obtain ⟨hnodup, hne, hbytes⟩ := hm
  have hperm := sortPairs_perm m
  rw [encodeValues_eq_segs]
  rw [parseQuery_joinAmp _ (by
    intro p hp
    simp only [segsOf, List.mem_flatMap, List.mem_map] at hp
    obtain ⟨e, he, v, hv, hpv⟩ := hp
    have hem : e ∈ m := hperm.mem_iff.mp he
    subst hpv
    exact ⟨(hbytes e hem).1, (hbytes e hem).2 v hv⟩)]
  rw [foldSegs_segsOf (sortPairs m) [] (by simp)
    (by
      have : ((sortPairs m).map Prod.fst).Perm (m.map Prod.fst) := hperm.map Prod.fst
      exact this.nodup_iff.mpr hnodup)
    (fun e he => hne e (hperm.mem_iff.mp he))]
  simp

/-! ### Component views of a URL string, and their behaviour under append -/

/-- The part of `s` before the query (everything `url.Parse` treats as
scheme, authority and path). -/
def preOf (s : GoStr) : GoStr := (cutByte 63 (cutByte 35 s).1).1

/-- The fragment of `s` (after the first `#`). -/
def fragOf (s : GoStr) : GoStr := (cutByte 35 s).2.1

theorem cutByte_found_iff (b : Nat) (s : GoStr) :
    (cutByte b s).2.2 = true ↔ b ∈ s := by
  induction s with
  | nil => simp [cutByte]
  | cons x xs ih =>
    by_cases hx : x = b
    · simp [cutByte, hx]
    · have hbx : ¬ b = x := fun h2 => hx h2.symm
      simp [cutByte, hx, ih, hbx]

theorem cutByte_append_left_fst {b : Nat} {p : GoStr} (hp : b ∉ p) (q : GoStr) :
    (cutByte b (p ++ q)).1 = p ++ (cutByte b q).1 := by
  induction p with
  | nil => simp
  | cons x xs ih =>
    have hx : x ≠ b := fun he => hp (he ▸ List.mem_cons_self x xs)
    have hxs : b ∉ xs := fun hm => hp (List.mem_cons_of_mem x hm)
    simp [cutByte, hx, ih hxs]

theorem urlParse_none_iff (s : GoStr) :
    urlParse s = none ↔
      (s.any isCtlB = true ∨ (preOf s).head? = some 58 ∨
        validEscapes (preOf s) = false ∨ validEscapes (fragOf s) = false ∨
        validHostPort (hostPortOf (preOf s)) = false) := by
  unfold urlParse preOf fragOf
  by_cases h1 : s.any isCtlB = true
  · simp [h1]
  · by_cases h2 : (cutByte 63 (cutByte 35 s).1).1.head? = some 58
    · simp [h1, h2]
    · by_cases h3 : validEscapes (cutByte 63 (cutByte 35 s).1).1 = true
      · by_cases h4 : validEscapes (cutByte 35 s).2.1 = true
        · by_cases h5 : validHostPort (hostPortOf (cutByte 63 (cutByte 35 s).1).1) = true
          · simp [h1, h2, h3, h4, h5]
          · simp [h1, h2, h3, h4, Bool.eq_false_iff.mpr h5]
        · simp [h1, h2, h3, Bool.eq_false_iff.mpr h4]
      · simp [h1, h2, Bool.eq_false_iff.mpr h3]

/-- Appending to a URL string does not change its pre-query component, as
long as either the string already has a `?` or the suffix starts with one. -/
theorem preOf_append (u suffix : GoStr) (hcase : 63 ∈ u ∨ suffix.head? = some 63) :
    preOf (u ++ suffix) = preOf u := by
  cases hf : (cutByte 35 u).2.2 with
  | true =>
    have hdec := cutByte_decomp hf
    have hnm := cutByte_before_not_mem 35 u
    have hsplit : u ++ suffix = (cutByte 35 u).1 ++ 35 :: ((cutByte 35 u).2.1 ++ suffix) := by
      conv_lhs => rw [hdec]
      simp
    unfold preOf
    rw [hsplit, cutByte_append hnm]
  | false =>
    obtain ⟨h1, _⟩ := cutByte_not_found hf
    have h35 : 35 ∉ u := by
      rw [← cutByte_found_iff, hf]; simp
    unfold preOf
    rw [cutByte_append_left_fst h35 suffix, h1]
    cases hq : (cutByte 63 u).2.2 with
    | true =>
      have hnm := cutByte_before_not_mem 63 u
      have hsplit : u ++ (cutByte 35 suffix).1 =
          (cutByte 63 u).1 ++ 63 :: ((cutByte 63 u).2.1 ++ (cutByte 35 suffix).1) := by
        conv_lhs => rw [cutByte_decomp hq]
        simp
      rw [hsplit, cutByte_append hnm]
    | false =>
      have h63 : 63 ∉ u := by
        rw [← cutByte_found_iff, hq]; simp
      have hhead : suffix.head? = some 63 := by
        rcases hcase with hc | hc
        · exact absurd hc h63
        · exact hc
      obtain ⟨tail, hsuf⟩ : ∃ tail, suffix = 63 :: tail := by
        cases suffix with
        | nil => simp at hhead
        | cons a tl =>
          simp only [List.head?_cons, Option.some_inj] at hhead
          exact ⟨tl, by rw [hhead]⟩
      rw [(cutByte_not_found hq).1, hsuf]
      rw [show (cutByte 35 (63 :: tail)).1 = 63 :: (cutByte 35 tail).1 by simp [cutByte]]
      rw [cutByte_append h63]

/-- When the string has a `#`, appending extends the fragment. -/
theorem fragOf_append {u : GoStr} (h35 : (cutByte 35 u).2.2 = true) (suffix : GoStr) :
    fragOf (u ++ suffix) = fragOf u ++ suffix := by
  have hnm := cutByte_before_not_mem 35 u
  have hsplit : u ++ suffix = (cutByte 35 u).1 ++ 35 :: ((cutByte 35 u).2.1 ++ suffix) := by
    conv_lhs => rw [cutByte_decomp h35]
    simp
  unfold fragOf
  rw [hsplit, cutByte_append hnm]

theorem unescapeCore_cons_37_bad (plus : Bool) (a b : Nat) (t : GoStr)
    (h : ¬ (isHexB a && isHexB b) = true) :
    unescapeCore plus (37 :: a :: b :: t) = none := by
  conv_lhs => unfold unescapeCore
  simp [h]

/-- A failed unescape stays failed after appending a string that does not
start with a hex digit (the appended part cannot complete a truncated
percent-escape). -/
theorem unescapeCore_append_none {plus : Bool} {f : GoStr}
    (h : unescapeCore plus f = none) {x : GoStr}
    (hx : ∀ b, x.head? = some b → isHexB b = false) :
    unescapeCore plus (f ++ x) = none := by
  induction f using unescapeCore.induct plus with
  | case1 => simp [unescapeCore] at h
  | case2 a b2 rest2 hhex ih =>
    rw [unescapeCore_cons_37 plus a b2 rest2 hhex] at h
    have hrest : unescapeCore plus rest2 = none := by
      cases hr : unescapeCore plus rest2 with
      | none => rfl
      | some t2 => rw [hr] at h; simp at h
    rw [show (37 :: a :: b2 :: rest2 : GoStr) ++ x = 37 :: a :: b2 :: (rest2 ++ x) from rfl]
    rw [unescapeCore_cons_37 plus a b2 (rest2 ++ x) hhex, ih hrest]
    rfl
  | case3 a b2 rest2 hhex =>
    rw [show (37 :: a :: b2 :: rest2 : GoStr) ++ x = 37 :: a :: b2 :: (rest2 ++ x) from rfl]
    exact unescapeCore_cons_37_bad plus a b2 (rest2 ++ x) hhex
  | case4 xs hshape =>
    rcases xs with _ | ⟨a, _ | ⟨b2, r2⟩⟩
    · cases x with
      | nil => simpa using h
      | cons b x2 =>
        have hbhex := hx b rfl
        cases x2 with
        | nil =>
          conv_lhs => unfold unescapeCore
          simp
        | cons c x3 =>
          rw [show ([37] : GoStr) ++ b :: c :: x3 = 37 :: b :: c :: x3 from rfl]
          exact unescapeCore_cons_37_bad plus b c x3 (by simp [hbhex])
    · cases x with
      | nil => simpa using h
      | cons b x2 =>
        rw [show ([37, a] : GoStr) ++ b :: x2 = 37 :: a :: b :: x2 from rfl]
        exact unescapeCore_cons_37_bad plus a b x2 (by simp [hx b rfl])
    · exact absurd rfl (hshape a b2 r2)
  | case5 y rest hy ih =>
    rw [unescapeCore_cons_ne37 plus y hy] at h
    have hrest : unescapeCore plus rest = none := by
      cases hr : unescapeCore plus rest with
      | none => rfl
      | some t2 => rw [hr] at h; simp at h
    rw [show (y :: rest) ++ x = y :: (rest ++ x) from rfl]
    rw [unescapeCore_cons_ne37 plus y hy, ih hrest]
    rfl

/-- Appending `?token=…` / `&token=…` to a string `url.Parse` rejects
yields a string it still rejects. -/
theorem urlParse_append_none {u : GoStr} (h : urlParse u = none) (suffix : GoStr)
    (hcase : 63 ∈ u ∨ suffix.head? = some 63)
    (hhex : ∀ b, suffix.head? = some b → isHexB b = false) :
    urlParse (u ++ suffix) = none := by
  rw [urlParse_none_iff] at h ⊢
  rcases h with h | h | h | h | h
  · left
    rw [List.any_eq_true] at h ⊢
    obtain ⟨b, hb, hbc⟩ := h
    exact ⟨b, List.mem_append_left suffix hb, hbc⟩
  · right; left
    rw [preOf_append u suffix hcase]
    exact h
  · right; right; left
    rw [preOf_append u suffix hcase]
    exact h
  · right; right; right; left
    cases h35 : (cutByte 35 u).2.2 with
    | false =>
      exfalso
      have : fragOf u = [] := (cutByte_not_found h35).2
      rw [this] at h
      simp [validEscapes, unescapeCore] at h
    | true =>
      rw [fragOf_append h35 suffix]
      unfold validEscapes at h ⊢
      have hfail : unescapeCore false (fragOf u) = none := by
        cases hr : unescapeCore false (fragOf u) with
        | none => rfl
        | some t2 => rw [hr] at h; simp at h
      rw [unescapeCore_append_none hfail hhex]
      rfl
  · right; right; right; right
    rw [preOf_append u suffix hcase]
    exact h

/-! ### Arm 1 of C9: URLs that parse -/

theorem urlParse_some_elim {s : GoStr} {u : URL} (h : urlParse s = some u) :
    u.pre = preOf s ∧ u.rawQuery = (cutByte 63 (cutByte 35 s).1).2.1 ∧
      u.frag = fragOf s ∧ s.any isCtlB = false ∧ (preOf s).head? ≠ some 58 ∧
      validEscapes (preOf s) = true ∧ validEscapes (fragOf s) = true ∧
      validHostPort (hostPortOf (preOf s)) = true := by
  have h2 := h
  simp only [urlParse] at h2
  split_ifs at h2 with hc hh he hf hp
  injection h2 with h3
  subst h3
  refine ⟨rfl, rfl, rfl, Bool.eq_false_iff.mpr hc, hh, ?_, ?_, ?_⟩
  · cases hv : validEscapes (cutByte 63 (cutByte 35 s).1).1 with
    | true => exact hv
    | false => exact absurd (by rw [hv]; rfl) he
  · cases hv : validEscapes (cutByte 35 s).2.1 with
    | true => exact hv
    | false => exact absurd (by rw [hv]; rfl) hf
  · cases hv : validHostPort (hostPortOf (cutByte 63 (cutByte 35 s).1).1) with
    | true => exact hv
    | false => exact absurd (by rw [hv]; rfl) hp

/-- Parsing the re-serialised URL with a fresh non-empty encoded query. -/
theorem urlParse_rebuild {pre enc frag : GoStr}
    (hpre35 : 35 ∉ pre) (hpre63 : 63 ∉ pre)
    (hpreCtl : ∀ b ∈ pre, isCtlB b = false)
    (hfragCtl : ∀ b ∈ frag, isCtlB b = false)
    (henc : ∀ b ∈ enc, querySafe b = true ∨ b = 61 ∨ b = 38)
    (hhead : pre.head? ≠ some 58)
    (hescP : validEscapes pre = true) (hescF : validEscapes frag = true)
    (hport : validHostPort (hostPortOf pre) = true) :
    urlParse (pre ++ 63 :: enc ++ (if frag.isEmpty then [] else 35 :: frag)) =
      some ⟨pre, enc, frag⟩ := by
  have hencNo : ∀ b ∈ enc, isCtlB b = false ∧ b ≠ 35 ∧ b ≠ 63 := by
    intro b hb
    rcases henc b hb with hq | hq | hq
    · have := querySafe_not_delim b hq
      exact ⟨by simp [isCtlB]; omega, this.1, this.2.1⟩
    · subst hq; exact ⟨by decide, by decide, by decide⟩
    · subst hq; exact ⟨by decide, by decide, by decide⟩
  have hctl : (pre ++ 63 :: enc ++ (if frag.isEmpty then [] else 35 :: frag)).any isCtlB
      = false := by
    rw [List.any_eq_false]
    intro b hb
    simp only [List.mem_append, List.mem_cons] at hb
    rcases hb with (hb | hb | hb) | hb
    · simp [hpreCtl b hb]
    · subst hb; decide
    · simp [(hencNo b hb).1]
    · split at hb
      · simp at hb
      · rcases List.mem_cons.mp hb with hb | hb
        · subst hb; decide
        · simp [hfragCtl b hb]
  have hcut : cutByte 35 (pre ++ 63 :: enc ++ (if frag.isEmpty then [] else 35 :: frag)) =
      (pre ++ 63 :: enc, (if frag.isEmpty then [] else frag), if frag.isEmpty then false else true) := by
    have hno35 : (35 : Nat) ∉ pre ++ 63 :: enc := by
      intro hm
      simp only [List.mem_append, List.mem_cons] at hm
      rcases hm with hm | hm | hm
      · exact hpre35 hm
      · simp at hm
      · exact (hencNo 35 hm).2.1 rfl
    cases frag with
    | nil =>
      show cutByte 35 (pre ++ 63 :: enc ++ []) = (pre ++ 63 :: enc, [], false)
      rw [List.append_nil, cutByte_not_mem hno35]
    | cons a l =>
      show cutByte 35 (pre ++ 63 :: enc ++ 35 :: (a :: l)) = (pre ++ 63 :: enc, a :: l, true)
      rw [show pre ++ 63 :: enc ++ 35 :: (a :: l) = (pre ++ 63 :: enc) ++ 35 :: (a :: l) by
        simp]
      rw [cutByte_append hno35]
  have hcut63 : cutByte 63 (pre ++ 63 :: enc) = (pre, enc, true) := cutByte_append hpre63
  unfold urlParse
  rw [hctl]
  simp only [Bool.false_eq_true, if_false, hcut, hcut63]
  cases frag with
  | nil => simp [hhead, hescP, hescF, hport]
  | cons a l => simp [hhead, hescP, hescF, hport]

theorem joinAmp_mem {l : List GoStr} : ∀ b ∈ joinAmp l, (∃ s ∈ l, b ∈ s) ∨ b = 38 := by
  induction l with
  | nil => simp [joinAmp]
  | cons s rest ih =>
    intro b hb
    simp only [joinAmp] at hb
    rcases List.mem_append.mp hb with hb | hb
    · exact Or.inl ⟨s, by simp, hb⟩
    · cases rest with
      | nil => simp at hb
      | cons s2 rest2 =>
        simp only [List.isEmpty_cons, if_false] at hb
        rcases List.mem_cons.mp hb with hb | hb
        · exact Or.inr hb
        · rcases ih b hb with ⟨s3, hs3, hbs3⟩ | hb
          · exact Or.inl ⟨s3, by simp [hs3], hbs3⟩
          · exact Or.inr hb

theorem encodeValues_bytes {m : Values} (hm : ValuesInv m) :
    ∀ b ∈ encodeValues m, querySafe b = true ∨ b = 61 ∨ b = 38 := by
  intro b hb
  rw [encodeValues_eq_segs] at hb
  rcases joinAmp_mem b hb with ⟨s, hs, hbs⟩ | hb
  · simp only [List.mem_map] at hs
    obtain ⟨p, hp, hps⟩ := hs
    simp only [segsOf, List.mem_flatMap, List.mem_map] at hp
    obtain ⟨e, he, v, hv, hpv⟩ := hp
    have hem : e ∈ m := (sortPairs_perm m).mem_iff.mp he
    have hgood : goodSeg p := by
      subst hpv
      exact ⟨(hm.2.2 e hem).1, (hm.2.2 e hem).2 v hv⟩
    subst hps
    rcases encodeSeg_safe hgood b hbs with h | h
    · exact Or.inl h
    · exact Or.inr (Or.inl h)
  · exact Or.inr (Or.inr hb)

theorem encodeValues_ne_nil {m : Values} {k : GoStr} {vs : List GoStr}
    (hmem : (k, vs) ∈ m) (hvs : vs ≠ []) : encodeValues m ≠ [] := by
  rw [encodeValues_eq_segs]
  obtain ⟨v, vs2, hvv⟩ : ∃ v vs2, vs = v :: vs2 := by
    cases hv : vs with
    | nil => exact absurd hv hvs
    | cons v vs2 => exact ⟨v, vs2, rfl⟩
  have hseg : (k, v) ∈ segsOf (sortPairs m) := by
    simp only [segsOf, List.mem_flatMap, List.mem_map]
    exact ⟨(k, vs), (sortPairs_perm m).mem_iff.mpr hmem, v, by simp [hvv], rfl⟩
  have hmap : encodeSeg (k, v) ∈ (segsOf (sortPairs m)).map encodeSeg :=
    List.mem_map_of_mem encodeSeg hseg
  cases hl : (segsOf (sortPairs m)).map encodeSeg with
  | nil => rw [hl] at hmap; simp at hmap
  | cons s rest =>
    have hsne : s ≠ [] := by
      have : s ∈ (segsOf (sortPairs m)).map encodeSeg := by rw [hl]; simp
      simp only [List.mem_map] at this
      obtain ⟨p, _, hps⟩ := this
      rw [← hps]
      exact encodeSeg_ne_nil p
    simp only [joinAmp]
    intro hcon
    rcases List.append_eq_nil.mp hcon with ⟨hs, _⟩
    exact hsne hs

theorem URL.toString_of_ne {pre rq fr : GoStr} (h : rq ≠ []) :
    URL.toString ⟨pre, rq, fr⟩ = pre ++ 63 :: rq ++ (if fr.isEmpty then [] else 35 :: fr) := by
  unfold URL.toString
  cases rq with
  | nil => exact absurd rfl h
  | cons a l => simp

theorem ValuesInv_perm {m m2 : Values} (h : m.Perm m2) (hm : ValuesInv m) :
    ValuesInv m2 := by
  obtain ⟨hnodup, hne, hbytes⟩ := hm
  refine ⟨?_, ?_, ?_⟩
  · exact ((h.map Prod.fst).nodup_iff).mp hnodup
  · intro e he; exact hne e (h.mem_iff.mpr he)
  · intro e he; exact hbytes e (h.mem_iff.mpr he)

theorem filter_idem (l : Values) (k : GoStr) :
    ((l.filter (fun e => e.1 ≠ k)).filter (fun e => e.1 ≠ k)) =
      l.filter (fun e => e.1 ≠ k) := by
  rw [List.filter_filter]
  congr 1
  funext e
  cases hd : (decide (e.1 ≠ k)) <;> simp [hd]

/-- The valuesSet/parse/encode cycle reproduces the same entry multiset. -/
theorem valuesSet_sort_perm (q : Values) (k v : GoStr) :
    (valuesSet (sortPairs (valuesSet q k v)) k v).Perm (valuesSet q k v) := by
  unfold valuesSet
  have h1 : ((sortPairs (q.filter (fun e => e.1 ≠ k) ++ [(k, [v])])).filter
      (fun e => e.1 ≠ k)).Perm
        ((q.filter (fun e => e.1 ≠ k) ++ [(k, [v])]).filter (fun e => e.1 ≠ k)) :=
    (sortPairs_perm _).filter _
  have h2 : ((q.filter (fun e => e.1 ≠ k) ++ [(k, [v])]).filter (fun e => e.1 ≠ k)) =
      q.filter (fun e => e.1 ≠ k) := by
    rw [List.filter_append, filter_idem]
    simp
  rw [h2] at h1
  exact h1.append_right [(k, [v])]

/-- After one `appendToken` on a parseable URL, re-parsing and re-setting the
token produces the identical encoded query. -/
theorem encodeValues_token_stable {m1 : Values} (hm1 : ValuesInv m1)
    {q : Values} {k v : GoStr} (hm1eq : m1 = valuesSet q k v) :
    encodeValues (valuesSet (sortPairs m1) k v) = encodeValues m1 := by
  have hinvS : ValuesInv (sortPairs m1) := ValuesInv_perm (sortPairs_perm m1).symm hm1
  have hkb : ∀ b ∈ k, b < 256 := by
    have : (k, [v]) ∈ m1 := by rw [hm1eq]; simp [valuesSet]
    exact (hm1.2.2 _ this).1
  have hvb : ∀ b ∈ v, b < 256 := by
    have : (k, [v]) ∈ m1 := by rw [hm1eq]; simp [valuesSet]
    exact (hm1.2.2 _ this).2 v (by simp)
  have hinv2 : ValuesInv (valuesSet (sortPairs m1) k v) := valuesSet_inv hinvS hkb hvb
  have hperm : (valuesSet (sortPairs m1) k v).Perm m1 := by
    rw [hm1eq]
    exact valuesSet_sort_perm q k v
  have hsorteq : sortPairs (valuesSet (sortPairs m1) k v) = sortPairs m1 := by
    apply sorted_nodupkeys_eq
    · exact ((sortPairs_perm _).trans hperm).trans (sortPairs_perm m1).symm
    · exact sortPairs_sorted _
    · exact sortPairs_sorted _
    · exact ((((sortPairs_perm (valuesSet (sortPairs m1) k v))).map Prod.fst).nodup_iff).mpr
        hinv2.1
  rw [encodeValues_eq_segs, encodeValues_eq_segs, hsorteq]

theorem appendToken_eq_of_parse {s : GoStr} {p2 : URL} (h : urlParse s = some p2)
    (t : GoStr) :
    appendToken s t = URL.toString
      ⟨p2.pre, encodeValues (valuesSet (parseQuery p2.rawQuery) (strBytes "token") t),
        p2.frag⟩ := by
  unfold appendToken
  rw [h]

theorem appendToken_eq_of_none {s : GoStr} (h : urlParse s = none) (t : GoStr) :
    appendToken s t =
      if 63 ∈ s then s ++ strBytes "&token=" ++ t else s ++ strBytes "?token=" ++ t := by
  unfold appendToken
  rw [h]

/-- C9: on URL strings that parse, `appendToken` is idempotent — the token
query parameter is `Set` (overwritten), not appended — while on strings
`url.Parse` rejects, a second application appends a second `&token=`
parameter, so idempotence holds only under the parseability precondition.
(Parseability is w.r.t. the `urlParse` model of `url.Parse`; see its doc
comment for the failure modes modelled.) -/
theorem appendToken_idempotent (rawURL token : String) :
    ((urlParse (strBytes rawURL)).isSome →
      appendToken (appendToken (strBytes rawURL) (strBytes token)) (strBytes token) =
        appendToken (strBytes rawURL) (strBytes token)) ∧
    (urlParse (strBytes rawURL) = none →
      appendToken (appendToken (strBytes rawURL) (strBytes token)) (strBytes token) =
        appendToken (strBytes rawURL) (strBytes token) ++ strBytes "&token=" ++
          strBytes token) := by
  constructor
  · intro hsome
    obtain ⟨p, hp⟩ := Option.isSome_iff_exists.mp hsome
    obtain ⟨hpre, hrq, hfrag, hctl, hhead, hescP, hescF, hport⟩ := urlParse_some_elim hp
    have hub : ∀ b ∈ strBytes rawURL, b < 256 := strBytes_lt rawURL
    have hrqb : ∀ b ∈ p.rawQuery, b < 256 := by
      rw [hrq]
      intro b hb
      exact hub b (cutByte_before_subset b (cutByte_after_subset b hb))
    have hqinv := parseQuery_inv p.rawQuery hrqb
    have hm1 : ValuesInv
        (valuesSet (parseQuery p.rawQuery) (strBytes "token") (strBytes token)) :=
      valuesSet_inv hqinv (strBytes_lt _) (strBytes_lt _)
    have happ1 := appendToken_eq_of_parse hp (strBytes token)
    have hencne : encodeValues
        (valuesSet (parseQuery p.rawQuery) (strBytes "token") (strBytes token)) ≠ [] :=
      encodeValues_ne_nil (show (strBytes "token", [strBytes token]) ∈ _ by
        simp [valuesSet]) (by simp)
    have hs1 : appendToken (strBytes rawURL) (strBytes token) =
        p.pre ++ 63 :: encodeValues
          (valuesSet (parseQuery p.rawQuery) (strBytes "token") (strBytes token)) ++
          (if p.frag.isEmpty then [] else 35 :: p.frag) := by
      rw [happ1, URL.toString_of_ne hencne]
    have hpre35 : 35 ∉ p.pre := by
      rw [hpre]
      intro hm
      exact cutByte_before_not_mem 35 (strBytes rawURL) (cutByte_before_subset 35 hm)
    have hpre63 : 63 ∉ p.pre := by
      rw [hpre]
      exact cutByte_before_not_mem 63 _
    have hctlAll : ∀ b ∈ strBytes rawURL, isCtlB b = false := by
      intro b hb
      have := List.any_eq_false.mp hctl b hb
      exact Bool.eq_false_iff.mpr this
    have hpreCtl : ∀ b ∈ p.pre, isCtlB b = false := by
      rw [hpre]
      intro b hb
      exact hctlAll b (cutByte_before_subset b (cutByte_before_subset b hb))
    have hfragCtl : ∀ b ∈ p.frag, isCtlB b = false := by
      rw [hfrag]
      intro b hb
      exact hctlAll b (cutByte_after_subset b hb)
    have hhead2 : p.pre.head? ≠ some 58 := by rw [hpre]; exact hhead
    have hescP2 : validEscapes p.pre = true := by rw [hpre]; exact hescP
    have hescF2 : validEscapes p.frag = true := by rw [hfrag]; exact hescF
    have hport2 : validHostPort (hostPortOf p.pre) = true := by rw [hpre]; exact hport
    have hparse2 : urlParse (appendToken (strBytes rawURL) (strBytes token)) =
        some ⟨p.pre, encodeValues
          (valuesSet (parseQuery p.rawQuery) (strBytes "token") (strBytes token)),
          p.frag⟩ := by
      rw [hs1]
      exact urlParse_rebuild hpre35 hpre63 hpreCtl hfragCtl
        (encodeValues_bytes hm1) hhead2 hescP2 hescF2 hport2
    have happ2 := appendToken_eq_of_parse hparse2 (strBytes token)
    rw [happ2]
    simp only
    rw [parseQuery_encodeValues _ hm1]
    rw [encodeValues_token_stable hm1 rfl]
    rw [← happ1]
  · intro hnone
    by_cases hq : 63 ∈ strBytes rawURL
    · have happ1 : appendToken (strBytes rawURL) (strBytes token) =
          strBytes rawURL ++ (strBytes "&token=" ++ strBytes token) := by
        rw [appendToken_eq_of_none hnone, if_pos hq, List.append_assoc]
      have hparse2 : urlParse (appendToken (strBytes rawURL) (strBytes token)) = none := by
        rw [happ1]
        refine urlParse_append_none hnone _ (Or.inl hq) ?_
        intro b hb
        have hb2 : b = 38 := by
          rw [show strBytes "&token=" ++ strBytes token =
            38 :: (strBytes "token=" ++ strBytes token) from rfl] at hb
          exact (by simpa using hb : (38 : Nat) = b).symm
        subst hb2
        decide
      have h63 : 63 ∈ appendToken (strBytes rawURL) (strBytes token) := by
        rw [happ1]
        exact List.mem_append_left _ hq
      rw [appendToken_eq_of_none hparse2, if_pos h63]
    · have happ1 : appendToken (strBytes rawURL) (strBytes token) =
          strBytes rawURL ++ (strBytes "?token=" ++ strBytes token) := by
        rw [appendToken_eq_of_none hnone, if_neg hq, List.append_assoc]
      have hparse2 : urlParse (appendToken (strBytes rawURL) (strBytes token)) = none := by
        rw [happ1]
        refine urlParse_append_none hnone _ (Or.inr ?_) ?_
        · rw [show strBytes "?token=" ++ strBytes token =
            63 :: (strBytes "token=" ++ strBytes token) from rfl]
          rfl
        · intro b hb
          have hb2 : b = 63 := by
            rw [show strBytes "?token=" ++ strBytes token =
              63 :: (strBytes "token=" ++ strBytes token) from rfl] at hb
            exact (by simpa using hb : (63 : Nat) = b).symm
          subst hb2
          decide
      have h63 : 63 ∈ appendToken (strBytes rawURL) (strBytes token) := by
        rw [happ1]
        refine List.mem_append_right _ (List.mem_append_left _ ?_)
        decide
      rw [appendToken_eq_of_none hparse2, if_pos h63]

/-- Witness for C9 at a concrete parseable URL. -/
theorem appendToken_idempotent_witness :
    (urlParse (strBytes "http://example.com/a")).isSome = true ∧
      appendToken (appendToken (strBytes "http://example.com/a") (strBytes "T"))
          (strBytes "T") =
        appendToken (strBytes "http://example.com/a") (strBytes "T") :=
  ⟨by decide, (appendToken_idempotent "http://example.com/a" "T").1 (by decide)⟩

/-! ## Remote metadata probe (downloader.go lines 531-698)

`tryGetFileInfo` is modelled against a `ProbeAttempt` record holding what
the HTTP round trip for that method would produce: whether building or
performing the request fails, the response content length, and the
`Content-Range` / `Content-Disposition` header values (empty string when the
header is absent, as `Header.Get` returns). -/

def isDigitB (b : Nat) : Bool := 48 ≤ b && b ≤ 57

/-- `strconv.ParseInt(s, 10, 64)` (success cases): optional sign, decimal
digits, value within int64 range. -/
def parseInt64 (s : GoStr) : Option Int :=
  match s with
  | [] => none
  | b :: rest =>
    let sd : Bool × GoStr :=
      if b = 45 then (true, rest) else if b = 43 then (false, rest) else (false, s)
    if sd.2 = [] then none
    else if !sd.2.all isDigitB then none
    else
      let n : Nat := sd.2.foldl (fun acc d => acc * 10 + (d - 48)) 0
      if sd.1 then
        if n ≤ 2 ^ 63 then some (-(n : Int)) else none
      else
        if n ≤ 2 ^ 63 - 1 then some (n : Int) else none

/-- `strings.TrimSpace` (ASCII whitespace). -/
def isSpaceB (b : Nat) : Bool := b == 32 || (9 ≤ b && b ≤ 13)

def trimSpaceB (s : GoStr) : GoStr :=
  ((s.dropWhile isSpaceB).reverse.dropWhile isSpaceB).reverse

/-- `strings.Trim(s, "\x22'")`: strip quote bytes from both ends. -/
def isQuoteB (b : Nat) : Bool := b == 34 || b == 39

def trimQuotes (s : GoStr) : GoStr :=
  ((s.dropWhile isQuoteB).reverse.dropWhile isQuoteB).reverse

/-- `strings.Index(s, "''")`: position of the first two adjacent `'`. -/
def indexDoubleQuote : GoStr → Option Nat
  | [] => none
  | [_] => none
  | x :: y :: rest =>
    if x = 39 && y = 39 then some 0
    else (indexDoubleQuote (y :: rest)).map (· + 1)

/-- Byte-wise ASCII lowercase (`strings.ToLower` restricted to ASCII; a
multi-byte rune never compares equal to the ASCII needles used below
either way). -/
def lowerB (s : GoStr) : GoStr :=
  s.map (fun b => if 65 ≤ b && b ≤ 90 then b + 32 else b)

def hasPrefixB (p s : GoStr) : Bool := s.take p.length = p

/-- `strings.Contains`. -/
def containsSub (needle : GoStr) : GoStr → Bool
  | [] => needle.isEmpty
  | x :: rest => hasPrefixB needle (x :: rest) || containsSub needle rest

/-- `parseContentDisposition` (downloader.go lines 640-671). -/
def parseContentDisposition (header : GoStr) : GoStr :=
  go (splitOnByte 59 header)
where
  go : List GoStr → GoStr
  | [] => []
  | part :: rest =>
    let part := trimSpaceB part
    if lowerB (part.take 10) = strBytes "filename*=" then
      let value := part.drop 10
      match indexDoubleQuote value with
      | some idx =>
        let encoded := value.drop (idx + 2)
        match unescapeCore false encoded with
        | some decoded => decoded
        | none => encoded
      | none => trimQuotes value
    else if lowerB (part.take 9) = strBytes "filename=" then
      trimQuotes (part.drop 9)
    else go rest

structure ProbeAttempt where
  reqErr : Bool
  doErr : Bool
  contentLength : Int
  contentRange : GoStr
  contentDisposition : GoStr

/-- `tryGetFileInfo` (downloader.go lines 575-622). -/
def tryGetFileInfo (a : ProbeAttempt) : GoStr × Int :=
  if a.reqErr then ([], 0)
  else if a.doErr then ([], 0)
  else
    let fileSize := a.contentLength
    let fileSize :=
      if fileSize < 0 then
        if a.contentRange ≠ [] then
          match lastIndexByte 47 a.contentRange with
          | some idx =>
            match parseInt64 (a.contentRange.drop (idx + 1)) with
            | some size => size
            | none => fileSize
          | none => fileSize
        else fileSize
      else fileSize
    if a.contentDisposition ≠ [] then
      let fileName := parseContentDisposition a.contentDisposition
      if fileName ≠ [] then (fileName, fileSize) else ([], fileSize)
    else ([], fileSize)

/-- The (unescaped) host component `url.URL.Host` of the pre-query part. -/
def hostOf (pre : GoStr) : GoStr :=
  (unescapeCore false (hostPortOf pre)).getD (hostPortOf pre)

/-- `IsCivitaiURL` (downloader.go lines 532-538). -/
def IsCivitaiURL (rawURL : GoStr) : Bool :=
  match urlParse rawURL with
  | none => containsSub (strBytes "civitai.com") (lowerB rawURL)
  | some parsed => containsSub (strBytes "civitai.com") (lowerB (hostOf parsed.pre))

/-- The raw path component of the pre-query part (`scheme:` and
`//authority` stripped; opaque URLs have an empty path). -/
def pathRawOf (pre : GoStr) : GoStr :=
  let sp := schemeSplit pre
  if sp.1.take 2 = [47, 47] then
    let c := cutByte 47 (sp.1.drop 2)
    if c.2.2 then 47 :: c.2.1 else []
  else if sp.2 && sp.1.head? != some 47 then []
  else sp.1

/-- `url.URL.Path`: the decoded path. -/
def pathOf (pre : GoStr) : GoStr :=
  (unescapeCore false (pathRawOf pre)).getD []

/-- `extractFileNameFromURL` (downloader.go lines 673-698). -/
def extractFileNameFromURL (rawURL : GoStr) : GoStr :=
  match urlParse rawURL with
  | none =>
    let parts := splitOnByte 47 rawURL
    let last := parts.getLastD []
    let last := (cutByte 63 last).1
    (unescapeCore false last).getD []
  | some parsed =>
    let parts := splitOnByte 47 (pathOf parsed.pre)
    let last := parts.getLastD []
    (unescapeCore false last).getD []

structure ProbeEnv where
  probe : Bool → GoStr → ProbeAttempt

/-- The URL the probes are issued against. -/
def requestURLOf (targetURL token : GoStr) : GoStr :=
  if token ≠ [] && IsCivitaiURL targetURL then appendToken targetURL token else targetURL

/-- `GetFileInfoFromURL` (downloader.go lines 541-573). -/
def GetFileInfoFromURL (env : ProbeEnv) (targetURL token : GoStr) : GoStr × Int :=
  let requestURL := requestURLOf targetURL token
  let r1 := tryGetFileInfo (env.probe false requestURL)
  if r1.1 ≠ [] && !looksLikeID r1.1 then r1
  else
    let r2 := tryGetFileInfo (env.probe true requestURL)
    if r2.1 ≠ [] && !looksLikeID r2.1 then r2
    else (extractFileNameFromURL targetURL, r2.2)

/-! ### C7: the fallback size comes from the GET probe alone -/

/-- A probe environment where the HEAD probe succeeds with a usable content
length (1000) but an identifier-like filename, and the GET probe fails. -/
def probeEnvC7 : ProbeEnv :=
  ⟨fun isGet _ =>
    if isGet then ⟨false, true, 0, [], []⟩
    else ⟨false, false, 1000, [], strBytes "attachment; filename=123456.bin"⟩⟩

/-- C7 counterexample: both probe strategies fail to yield an acceptable
filename (HEAD's name is identifier-like, GET errors), the HEAD probe
returned the usable content length 1000, yet `GetFileInfoFromURL` falls back
with size 0 — the HEAD size is discarded, refuting "size from whichever
probe returned a usable content length". -/
theorem getFileInfo_headSize_discarded :
    (tryGetFileInfo (probeEnvC7.probe false
        (requestURLOf (strBytes "http://example.com/file") []))).2 = 1000 ∧
    looksLikeID (tryGetFileInfo (probeEnvC7.probe false
        (requestURLOf (strBytes "http://example.com/file") []))).1 = true ∧
    (GetFileInfoFromURL probeEnvC7 (strBytes "http://example.com/file") []).2 = 0 ∧
    (GetFileInfoFromURL probeEnvC7 (strBytes "http://example.com/file") []).1 =
      strBytes "file" := by
  refine ⟨by decide, by decide, by decide, by decide⟩

/-- C7 (amended): when neither probe yields an acceptable filename,
`GetFileInfoFromURL` returns the percent-decoded last path segment of the
URL together with the size from the second (ranged GET) probe alone; the
HEAD probe's size is discarded (in particular a failed GET yields size 0,
and the unknown sentinel -1 only when the GET succeeded with no usable
length). -/
theorem getFileInfo_fallback (env : ProbeEnv) (targetURL token : GoStr)
    (hHEAD : ((tryGetFileInfo (env.probe false (requestURLOf targetURL token))).1 = [] ∨
      looksLikeID (tryGetFileInfo (env.probe false (requestURLOf targetURL token))).1 = true))
    (hGET : ((tryGetFileInfo (env.probe true (requestURLOf targetURL token))).1 = [] ∨
      looksLikeID (tryGetFileInfo (env.probe true (requestURLOf targetURL token))).1 = true)) :
    GetFileInfoFromURL env targetURL token =
      (extractFileNameFromURL targetURL,
        (tryGetFileInfo (env.probe true (requestURLOf targetURL token))).2) := by
  unfold GetFileInfoFromURL
  have hc1 : (decide ((tryGetFileInfo (env.probe false (requestURLOf targetURL token))).1 ≠ []) &&
      !looksLikeID (tryGetFileInfo (env.probe false (requestURLOf targetURL token))).1) = false := by
    rcases hHEAD with h | h <;> simp [h]
  have hc2 : (decide ((tryGetFileInfo (env.probe true (requestURLOf targetURL token))).1 ≠ []) &&
      !looksLikeID (tryGetFileInfo (env.probe true (requestURLOf targetURL token))).1) = false := by
    rcases hGET with h | h <;> simp [h]
  simp only [hc1, hc2, Bool.false_eq_true, if_false]

/-- Witness for the amended C7 at the concrete environment of the
counterexample. -/
theorem getFileInfo_fallback_witness :
    ((tryGetFileInfo (probeEnvC7.probe false
        (requestURLOf (strBytes "http://example.com/file") []))).1 = [] ∨
      looksLikeID (tryGetFileInfo (probeEnvC7.probe false
        (requestURLOf (strBytes "http://example.com/file") []))).1 = true) ∧
    ((tryGetFileInfo (probeEnvC7.probe true
        (requestURLOf (strBytes "http://example.com/file") []))).1 = [] ∨
      looksLikeID (tryGetFileInfo (probeEnvC7.probe true
        (requestURLOf (strBytes "http://example.com/file") []))).1 = true) ∧
    GetFileInfoFromURL probeEnvC7 (strBytes "http://example.com/file") [] =
      (extractFileNameFromURL (strBytes "http://example.com/file"),
        (tryGetFileInfo (probeEnvC7.probe true
          (requestURLOf (strBytes "http://example.com/file") []))).2) :=
  ⟨by decide, by decide,
    getFileInfo_fallback probeEnvC7 (strBytes "http://example.com/file") []
      (by decide) (by decide)⟩

/-! ## Downloader data model (downloader.go lines 209-247)

`Progress` mirrors the Go struct; the `float64` fields are modelled in
`Rat` (see the header comment), the `status` field keeps the Go string
values `"downloading"`, `"completed"`, `"error"`, `"cancelled"`. -/

structure Progress where
  fileID : String
  fileName : String
  total : Int
  downloaded : Int
  percent : Rat
  speed : Rat
  status : String
  error : String
  deriving DecidableEq, Repr

/-! ## Broadcast hub (downloader.go lines 250-281)

`Subscribe` creates a channel with capacity 100; `broadcast` performs a
non-blocking send on every listener: the update is appended to a queue
that has room and dropped for a full queue.  A queue is the list of
messages buffered and not yet consumed, oldest first. -/

def subscribeCapacity : Nat := 100

/-- The non-blocking `select { case ch <- p: default: }` on one queue. -/
def sendNonBlocking (q : List Progress) (p : Progress) : List Progress :=
  if q.length < subscribeCapacity then q ++ [p] else q

/-- `broadcast` (downloader.go lines 271-281). -/
def broadcast (listeners : List (List Progress)) (p : Progress) : List (List Progress) :=
  listeners.map (fun q => sendNonBlocking q p)

/-- A sequence of `updateProgress` publications. -/
def broadcastAll (listeners : List (List Progress)) (ps : List Progress) :
    List (List Progress) :=
  ps.foldl broadcast listeners

theorem broadcastAll_delivers (ps : List Progress) :
    ∀ (ls : List (List Progress)) (i : Nat) (q : List Progress),
      ls[i]? = some q → q.length + ps.length ≤ subscribeCapacity →
      (broadcastAll ls ps)[i]? = some (q ++ ps) := by
  induction ps with
  | nil =>
    intro ls i q hq _
    simp only [broadcastAll, List.foldl_nil, List.append_nil]
    exact hq
  | cons p ps2 ih =>
    intro ls i q hq hlen
    have hstep : (broadcast ls p)[i]? = some (q ++ [p]) := by
      unfold broadcast
      rw [List.getElem?_map, hq]
      have hsend : sendNonBlocking q p = q ++ [p] := by
        unfold sendNonBlocking
        rw [if_pos (by simp only [List.length_cons] at hlen; omega)]
      simp [hsend]
    have := ih (broadcast ls p) i (q ++ [p]) hstep
      (by simp only [List.length_append, List.length_cons, List.length_nil]
          simp only [List.length_cons] at hlen
          omega)
    simpa [broadcastAll, List.append_assoc] using this

/-- C5: each subscriber whose queue has room receives every published
update, appended in emission order; a full queue drops exactly that update
for that subscriber only, every other queue being updated independently;
the subscriber set itself is unchanged and the publisher never blocks
(`broadcast` is a total function of the queues). -/
theorem broadcast_correct (ls : List (List Progress)) (p : Progress) (ps : List Progress) :
    (broadcast ls p).length = ls.length ∧
    (∀ (i : Nat) (q : List Progress), ls[i]? = some q → q.length < subscribeCapacity →
      (broadcast ls p)[i]? = some (q ++ [p])) ∧
    (∀ (i : Nat) (q : List Progress), ls[i]? = some q → ¬ q.length < subscribeCapacity →
      (broadcast ls p)[i]? = some q) ∧
    (∀ (i : Nat) (q : List Progress), ls[i]? = some q →
      q.length + ps.length ≤ subscribeCapacity →
      (broadcastAll ls ps)[i]? = some (q ++ ps)) := by
  refine ⟨by simp [broadcast], ?_, ?_, ?_⟩
  · intro i q hq hroom
    unfold broadcast
    rw [List.getElem?_map, hq]
    simp [sendNonBlocking, hroom]
  · intro i q hq hfull
    unfold broadcast
    rw [List.getElem?_map, hq]
    simp [sendNonBlocking, hfull]
  · intro i q hq hlen
    exact broadcastAll_delivers ps ls i q hq hlen

/-- Witness for C5: two subscribers, one empty and one saturated; the empty
one receives the update, the saturated one drops it. -/
theorem broadcast_correct_witness :
    (([([] : List Progress),
        List.replicate 100 ⟨"", "", 0, 0, 0, 0, "", ""⟩][0]?) = some [] ∧
      ([([] : List Progress),
        List.replicate 100 ⟨"", "", 0, 0, 0, 0, "", ""⟩][1]?) =
          some (List.replicate 100 ⟨"", "", 0, 0, 0, 0, "", ""⟩)) ∧
    (broadcast [[], List.replicate 100 ⟨"", "", 0, 0, 0, 0, "", ""⟩]
        ⟨"w", "w", 0, 0, 0, 0, "downloading", ""⟩)[0]? =
      some [⟨"w", "w", 0, 0, 0, 0, "downloading", ""⟩] ∧
    (broadcast [[], List.replicate 100 ⟨"", "", 0, 0, 0, 0, "", ""⟩]
        ⟨"w", "w", 0, 0, 0, 0, "downloading", ""⟩)[1]? =
      some (List.replicate 100 ⟨"", "", 0, 0, 0, 0, "", ""⟩) := by
  refine ⟨⟨by decide, by decide⟩, ?_, ?_⟩
  · exact (broadcast_correct [[], List.replicate 100 ⟨"", "", 0, 0, 0, 0, "", ""⟩]
      ⟨"w", "w", 0, 0, 0, 0, "downloading", ""⟩ []).2.1 0 [] (by decide) (by decide)
  · exact (broadcast_correct [[], List.replicate 100 ⟨"", "", 0, 0, 0, 0, "", ""⟩]
      ⟨"w", "w", 0, 0, 0, 0, "downloading", ""⟩ []).2.2.1 1
      (List.replicate 100 ⟨"", "", 0, 0, 0, 0, "", ""⟩) (by decide) (by decide)

/-! ## Filesystem environment

`OsEnv` packages the results of the OS and `path/filepath` calls the
downloader makes.  `stat` returns the outcome `os.Stat` would produce:
any error (non-existence, permission, I/O, …) or the file info. -/

inductive StatError where
  | notExist
  | permission
  | other (msg : String)
  deriving DecidableEq, Repr

structure StatInfo where
  size : Int
  deriving DecidableEq, Repr

structure OsEnv where
  userHomeDir : Option String
  join2 : String → String → String
  join3 : String → String → String → String
  absPath : String → Option String
  stat : String → Except StatError StatInfo

/-- `config.ExpandPath` (config.go lines 161-173): expand a leading `~`
via the home directory when available, otherwise fall back to
`filepath.Abs`, and on its failure return the path unchanged. -/
def ExpandPath (env : OsEnv) (path : String) : String :=
  if path.startsWith "~" then
    match env.userHomeDir with
    | some home => env.join2 home (path.drop 1)
    | none =>
      match env.absPath path with
      | some a => a
      | none => path
  else
    match env.absPath path with
    | some a => a
    | none => path

structure FileStatus where
  Exists : Bool
  Size : Int
  deriving DecidableEq, Repr

/-- `CheckFileStatus` (downloader.go lines 304-312). -/
def CheckFileStatus (env : OsEnv) (rootDir folder fileName : String) : FileStatus :=
  let fullPath := env.join3 (ExpandPath env rootDir) folder fileName
  match env.stat fullPath with
  | .error _ => ⟨false, 0⟩
  | .ok info => ⟨true, info.size⟩

/-- C10: `CheckFileStatus` reports `exists=false, size=0` whenever `stat`
on the joined path fails for any reason — non-existence, permission error
or anything else — and `exists=true` with the actual size otherwise. -/
theorem CheckFileStatus_correct (env : OsEnv) (rootDir folder fileName : String) :
    (∀ e : StatError,
      env.stat (env.join3 (ExpandPath env rootDir) folder fileName) = .error e →
      CheckFileStatus env rootDir folder fileName = ⟨false, 0⟩) ∧
    (∀ info : StatInfo,
      env.stat (env.join3 (ExpandPath env rootDir) folder fileName) = .ok info →
      CheckFileStatus env rootDir folder fileName = ⟨true, info.size⟩) := by
  constructor
  · intro e he
    unfold CheckFileStatus
    simp only [he]
  · intro info hi
    unfold CheckFileStatus
    simp only [hi]

/-- Witness for C10: a permission error on an existing file still reports
`exists=false, size=0`. -/
theorem CheckFileStatus_correct_witness :
    (OsEnv.mk none (fun a _ => a) (fun a _ _ => a) (fun a => some a)
        (fun _ => .error .permission)).stat
      ((OsEnv.mk none (fun a _ => a) (fun a _ _ => a) (fun a => some a)
        (fun _ => .error .permission)).join3
        (ExpandPath (OsEnv.mk none (fun a _ => a) (fun a _ _ => a) (fun a => some a)
          (fun _ => .error .permission)) "/root") "models" "a.bin") =
      .error .permission ∧
    CheckFileStatus (OsEnv.mk none (fun a _ => a) (fun a _ _ => a) (fun a => some a)
      (fun _ => .error .permission)) "/root" "models" "a.bin" = ⟨false, 0⟩ :=
  ⟨rfl, (CheckFileStatus_correct _ "/root" "models" "a.bin").1 .permission rfl⟩

/-! ## Progress store (downloader.go lines 228-302, 504-512)

The Go store is `progress map[string]*Progress`: a map from identifier to a
*pointer* to a mutable record.  We model pointers as references into an
explicit heap: `progress` maps an identifier to a reference, `heap`
dereferences.  `updateProgress` mutates the heap cell in place — exactly
what `fn(p)` does through the shared `*Progress` — and returns the value
copy `*p` that `broadcast(*p)` would fan out.  `GetAllProgress` copies the
map but not the records: the copy holds the same references. -/

structure DState where
  progress : String → Option Nat
  heap : Nat → Option Progress
  nextRef : Nat
  cancelFns : List String

def emptyDState : DState := ⟨fun _ => none, fun _ => none, 0, []⟩

/-- Dereference the record for an identifier (what a reader of
`d.progress[id]` observes through the pointer). -/
def DState.view (s : DState) (id : String) : Option Progress :=
  (s.progress id).bind s.heap

def statusOf (s : DState) (id : String) : Option String :=
  (s.view id).map (fun p => p.status)

/-- Registration (Download lines 339-346): allocate a fresh record with
status `"downloading"` and store its pointer under the identifier,
overwriting any previous entry; record the cancel handle. -/
def DState.register (s : DState) (id fileName : String) : DState where
  progress := fun k => if k = id then some s.nextRef else s.progress k
  heap := fun r =>
    if r = s.nextRef then
      some ⟨id, fileName, 0, 0, 0, 0, "downloading", ""⟩
    else s.heap r
  nextRef := s.nextRef + 1
  cancelFns := if id ∈ s.cancelFns then s.cancelFns else id :: s.cancelFns

/-- The deferred `delete(d.cancelFns, entry.ID)` (lines 348-352). -/
def DState.removeCancel (s : DState) (id : String) : DState :=
  { s with cancelFns := s.cancelFns.erase id }

/-- `updateProgress` (lines 504-512): mutate the pointed-to record in
place when the identifier is present; the second component is the value
snapshot passed to `broadcast`. -/
def DState.updateProgress (s : DState) (id : String) (fn : Progress → Progress) :
    DState × Option Progress :=
  match s.progress id with
  | none => (s, none)
  | some r =>
    match s.heap r with
    | none => (s, none)
    | some p =>
      let p2 := fn p
      ({ s with heap := fun r2 => if r2 = r then some p2 else s.heap r2 }, some p2)

/-- `GetProgress` (lines 284-291): returns the pointer stored in the map. -/
def GetProgress (s : DState) (id : String) : Option Nat := s.progress id

/-- `GetAllProgress` (lines 293-302): a fresh map holding the same
key-to-pointer entries. -/
def GetAllProgress (s : DState) : String → Option Nat := s.progress

/-- What a holder of the returned map observes for an identifier: the
pointer is dereferenced against the heap as it is *now*. -/
def viewSnapshot (snap : String → Option Nat) (heap : Nat → Option Progress)
    (id : String) : Option Progress :=
  (snap id).bind heap

/-! ## Download orchestration (downloader.go lines 314-481) -/

structure FileEntry where
  id : String
  url : String
  fileName : String
  folder : String
  title : String
  description : String
  sourceUrl : String
  useToken : Bool
  deriving DecidableEq, Repr

inductive ReadEnd where
  | cont
  | eof
  | errRead (msg : String)
  deriving DecidableEq, Repr

/-- One iteration's worth of environment for the copy loop: the bytes
`resp.Body.Read` returns, the outcome of `file.Write` when bytes were
read, and how the read ended. -/
structure ChunkRead where
  n : Nat
  writeErr : Option String
  rend : ReadEnd
  deriving DecidableEq, Repr

structure HttpResponse where
  statusCode : Nat
  statusText : String
  contentLength : Int
  deriving DecidableEq, Repr

structure DownloadEnv where
  os : OsEnv
  dirOf : String → String
  mkdirErr : String → Option String
  newRequestErr : Option String
  doResult : Except String HttpResponse
  createErr : Option String
  elapsedAt : Nat → Rat
  body : List ChunkRead
  cancelAt : Option Nat
  renameErr : Option String

inductive FsOp where
  | mkdirAll (dir : String)
  | createFile (path : String)
  | writeChunk (path : String) (n : Nat)
  | removeFile (path : String)
  | renameFile (src dst : String)
  deriving DecidableEq, Repr

inductive DlResult where
  | ok
  | err (msg : String)
  | starved
  deriving DecidableEq, Repr

structure DownloadOut where
  res : DlResult
  state : DState
  trace : List DState
  fsOps : List FsOp
  netCalls : Nat
  requestedURL : Option GoStr

structure LoopSt where
  downloaded : Nat
  state : DState
  trace : List DState
  fsOps : List FsOp

inductive LoopOut where
  | done (downloaded : Nat) (st : LoopSt)
  | cancelledL (st : LoopSt)
  | failedL (msg : String) (st : LoopSt)
  | starvedL (st : LoopSt)

/-- Apply a progress mutation and record the post-mutation state in the
observation trace. -/
def applyUpdate (st : LoopSt) (id : String) (fn : Progress → Progress) : LoopSt :=
  let s2 := (st.state.updateProgress id fn).1
  { st with state := s2, trace := st.trace ++ [s2] }

/-- Whether `ctx.Done()` has fired by iteration `i` (the signal is
monotone: once fired it stays fired). -/
def cancelFired (cancelAt : Option Nat) (i : Nat) : Bool :=
  match cancelAt with
  | some k => k ≤ i
  | none => false

/-- The copy loop (Download lines 400-460), one `ChunkRead` per
iteration.  `starvedL` is a model artifact for a body list exhausted
without EOF (the real `Read` would block). -/
def downloadLoop (env : DownloadEnv) (id tmpPath : String) (total : Int) :
    Nat → List ChunkRead → LoopSt → LoopOut
  | i, body, st =>
    if cancelFired env.cancelAt i then
      let st := { st with fsOps := st.fsOps ++ [FsOp.removeFile tmpPath] }
      .cancelledL (applyUpdate st id (fun p => { p with status := "cancelled" }))
    else
      match body with
      | [] => .starvedL st
      | c :: rest =>
        if c.n > 0 then
          match c.writeErr with
          | some m =>
            let st := { st with fsOps := st.fsOps ++ [FsOp.removeFile tmpPath] }
            .failedL m (applyUpdate st id (fun p => { p with status := "error", error := m }))
          | none =>
            let downloaded := st.downloaded + c.n
            let elapsed := env.elapsedAt i
            let percent : Rat :=
              if total > 0 then (downloaded : Rat) / (total : Rat) * 100 else 0
            let speed : Rat := if elapsed > 0 then (downloaded : Rat) / elapsed else 0
            let st := { st with downloaded := downloaded,
                                fsOps := st.fsOps ++ [FsOp.writeChunk tmpPath c.n] }
            let st := applyUpdate st id (fun p =>
              { p with downloaded := (downloaded : Int), percent := percent, speed := speed })
            match c.rend with
            | .eof => .done downloaded st
            | .errRead m =>
              let st := { st with fsOps := st.fsOps ++ [FsOp.removeFile tmpPath] }
              .failedL m (applyUpdate st id (fun p => { p with status := "error", error := m }))
            | .cont => downloadLoop env id tmpPath total (i + 1) rest st
        else
          match c.rend with
          | .eof => .done st.downloaded st
          | .errRead m =>
            let st := { st with fsOps := st.fsOps ++ [FsOp.removeFile tmpPath] }
            .failedL m (applyUpdate st id (fun p => { p with status := "error", error := m }))
          | .cont => downloadLoop env id tmpPath total (i + 1) rest st

/-- The destination path `Download` computes (line 316). -/
def fullPathOf (env : DownloadEnv) (entry : FileEntry) (rootDir : String) : String :=
  env.os.join3 (ExpandPath env.os rootDir) entry.folder entry.fileName

/-- `Download` (downloader.go lines 314-481).  The output records the
returned value, the final store state, the trace of store states after
each progress mutation, the filesystem operations performed, the number of
`client.Do` network calls, and the URL requested (when a request was
performed). -/
def Download (env : DownloadEnv) (entry : FileEntry) (rootDir token : String)
    (force : Bool) (s0 : DState) : DownloadOut :=
  let fullPath := fullPathOf env entry rootDir
  if !force && (env.os.stat fullPath).isOk then
    ⟨.ok, s0, [], [], 0, none⟩
  else
    let dir := env.dirOf fullPath
    match env.mkdirErr dir with
    | some m =>
      ⟨.err ("failed to create directory: " ++ m), s0, [], [FsOp.mkdirAll dir], 0, none⟩
    | none =>
      let downloadURL :=
        if entry.useToken && token ≠ "" then
          appendToken (strBytes entry.url) (strBytes token)
        else strBytes entry.url
      let s1 := s0.register entry.id entry.fileName
      match env.newRequestErr with
      | some m =>
        let s2 := (s1.updateProgress entry.id
          (fun p => { p with status := "error", error := m })).1
        ⟨.err m, s2.removeCancel entry.id, [s1, s2], [FsOp.mkdirAll dir], 0, none⟩
      | none =>
        match env.doResult with
        | .error m =>
          let s2 := (s1.updateProgress entry.id
            (fun p => { p with status := "error", error := m })).1
          ⟨.err m, s2.removeCancel entry.id, [s1, s2], [FsOp.mkdirAll dir], 1,
            some downloadURL⟩
        | .ok resp =>
          if resp.statusCode ≠ 200 then
            let m := "bad status: " ++ resp.statusText
            let s2 := (s1.updateProgress entry.id
              (fun p => { p with status := "error", error := m })).1
            ⟨.err m, s2.removeCancel entry.id, [s1, s2], [FsOp.mkdirAll dir], 1,
              some downloadURL⟩
          else
            let tmpPath := fullPath ++ ".tmp"
            match env.createErr with
            | some m =>
              let s2 := (s1.updateProgress entry.id
                (fun p => { p with status := "error", error := m })).1
              ⟨.err m, s2.removeCancel entry.id, [s1, s2], [FsOp.mkdirAll dir], 1,
                some downloadURL⟩
            | none =>
              let total := resp.contentLength
              let s2 := (s1.updateProgress entry.id (fun p => { p with total := total })).1
              let st0 : LoopSt :=
                ⟨0, s2, [s1, s2], [FsOp.mkdirAll dir, FsOp.createFile tmpPath]⟩
              match downloadLoop env entry.id tmpPath total 0 env.body st0 with
              | .cancelledL st =>
                ⟨.err "context canceled", st.state.removeCancel entry.id, st.trace,
                  st.fsOps, 1, some downloadURL⟩
              | .failedL m st =>
                ⟨.err m, st.state.removeCancel entry.id, st.trace, st.fsOps, 1,
                  some downloadURL⟩
              | .starvedL st =>
                ⟨.starved, st.state.removeCancel entry.id, st.trace, st.fsOps, 1,
                  some downloadURL⟩
              | .done downloaded st =>
                match env.renameErr with
                | some m =>
                  let st := { st with fsOps := st.fsOps ++ [FsOp.removeFile tmpPath] }
                  let st := applyUpdate st entry.id
                    (fun p => { p with status := "error", error := m })
                  ⟨.err m, st.state.removeCancel entry.id, st.trace, st.fsOps, 1,
                    some downloadURL⟩
                | none =>
                  let st := { st with fsOps := st.fsOps ++ [FsOp.renameFile tmpPath fullPath] }
                  let st := applyUpdate st entry.id (fun p =>
                    { p with status := "completed", percent := 100,
                             downloaded := (downloaded : Int) })
                  ⟨.ok, st.state.removeCancel entry.id, st.trace, st.fsOps, 1,
                    some downloadURL⟩

/-! ### Store lemmas -/

theorem view_register (s : DState) (id fileName : String) :
    (s.register id fileName).view id =
      some ⟨id, fileName, 0, 0, 0, 0, "downloading", ""⟩ := by
  simp [DState.register, DState.view]

theorem view_removeCancel (s : DState) (id id2 : String) :
    (s.removeCancel id).view id2 = s.view id2 := rfl

theorem view_updateProgress (s : DState) (id : String) (fn : Progress → Progress) :
    ((s.updateProgress id fn).1).view id = (s.view id).map fn := by
  unfold DState.updateProgress DState.view
  cases hp : s.progress id with
  | none => simp [hp]
  | some r =>
    cases hh : s.heap r with
    | none => simp [hp, hh]
    | some p => simp [hp, hh]

theorem view_applyUpdate (st : LoopSt) (id : String) (fn : Progress → Progress) :
    (applyUpdate st id fn).state.view id = (st.state.view id).map fn :=
  view_updateProgress st.state id fn

/-! ### C1: existing destination and force=false -/

/-- C1: when the destination file exists (`os.Stat` succeeds) and `force`
is false, `Download` returns success immediately: the store is returned
unchanged (no Progress record is created or mutated, the mutation trace is
empty), no filesystem operation happens, and no network request is issued
(`client.Do` is never called and no URL is requested). -/
theorem download_skip_existing (env : DownloadEnv) (entry : FileEntry)
    (rootDir token : String) (s0 : DState)
    (hstat : (env.os.stat (fullPathOf env entry rootDir)).isOk = true) :
    Download env entry rootDir token false s0 = ⟨.ok, s0, [], [], 0, none⟩ := by
  unfold Download
  rw [if_pos]
  rw [hstat]
  rfl

/-- Witness for C1. -/
theorem download_skip_existing_witness :
    ((DownloadEnv.mk
        ⟨none, fun a _ => a, fun a b c => a ++ "/" ++ b ++ "/" ++ c, fun a => some a,
          fun _ => .ok ⟨77⟩⟩
        (fun d => d) (fun _ => none) none (.ok ⟨200, "200 OK", 5⟩) none (fun _ => 1)
        [] none none).os.stat
      (fullPathOf (DownloadEnv.mk
        ⟨none, fun a _ => a, fun a b c => a ++ "/" ++ b ++ "/" ++ c, fun a => some a,
          fun _ => .ok ⟨77⟩⟩
        (fun d => d) (fun _ => none) none (.ok ⟨200, "200 OK", 5⟩) none (fun _ => 1)
        [] none none)
        ⟨"f1", "http://x/y", "file.bin", "models", "", "", "", false⟩ "/r")).isOk = true ∧
    Download (DownloadEnv.mk
        ⟨none, fun a _ => a, fun a b c => a ++ "/" ++ b ++ "/" ++ c, fun a => some a,
          fun _ => .ok ⟨77⟩⟩
        (fun d => d) (fun _ => none) none (.ok ⟨200, "200 OK", 5⟩) none (fun _ => 1)
        [] none none)
      ⟨"f1", "http://x/y", "file.bin", "models", "", "", "", false⟩ "/r" "" false
      emptyDState = ⟨.ok, emptyDState, [], [], 0, none⟩ :=
  ⟨rfl, download_skip_existing _ _ "/r" "" emptyDState rfl⟩

/-! ### C4: directory-creation failure -/

/-- C4 (amended): when `os.MkdirAll` on the destination's parent fails,
`Download` aborts *before* registering any Progress record: it returns the
wrapped error to its caller, the store is unchanged (in particular there is
no record with status `"error"` for the identifier), the mutation trace is
empty and no network request is issued.  The failure is therefore *not*
observable through the progress snapshot query. -/
theorem download_mkdir_fail (env : DownloadEnv) (entry : FileEntry)
    (rootDir token : String) (force : Bool) (s0 : DState) (m : String)
    (hstart : force = true ∨ (env.os.stat (fullPathOf env entry rootDir)).isOk = false)
    (hmkdir : env.mkdirErr (env.dirOf (fullPathOf env entry rootDir)) = some m) :
    Download env entry rootDir token force s0 =
      ⟨.err ("failed to create directory: " ++ m), s0, [],
        [FsOp.mkdirAll (env.dirOf (fullPathOf env entry rootDir))], 0, none⟩ := by
  unfold Download
  rw [if_neg]
  · simp only [hmkdir]
  · rcases hstart with h | h
    · subst h; simp
    · rw [h]; simp

/-- C4 counterexample: with an empty store and a failing `mkdir`, the
claimed status-error record does not exist — the snapshot query sees no
record at all for the identifier, refuting "surfaced as a Progress record
with status error". -/
theorem download_mkdir_fail_counterexample :
    (Download (DownloadEnv.mk
        ⟨none, fun a _ => a, fun a b c => a ++ "/" ++ b ++ "/" ++ c, fun a => some a,
          fun _ => .error .notExist⟩
        (fun d => d) (fun _ => some "permission denied") none (.ok ⟨200, "200 OK", 5⟩)
        none (fun _ => 1) [] none none)
      ⟨"f1", "http://x/y", "file.bin", "models", "", "", "", false⟩ "/r" "" false
      emptyDState).res = .err "failed to create directory: permission denied" ∧
    viewSnapshot
      (GetAllProgress (Download (DownloadEnv.mk
        ⟨none, fun a _ => a, fun a b c => a ++ "/" ++ b ++ "/" ++ c, fun a => some a,
          fun _ => .error .notExist⟩
        (fun d => d) (fun _ => some "permission denied") none (.ok ⟨200, "200 OK", 5⟩)
        none (fun _ => 1) [] none none)
      ⟨"f1", "http://x/y", "file.bin", "models", "", "", "", false⟩ "/r" "" false
      emptyDState).state)
      (Download (DownloadEnv.mk
        ⟨none, fun a _ => a, fun a b c => a ++ "/" ++ b ++ "/" ++ c, fun a => some a,
          fun _ => .error .notExist⟩
        (fun d => d) (fun _ => some "permission denied") none (.ok ⟨200, "200 OK", 5⟩)
        none (fun _ => 1) [] none none)
      ⟨"f1", "http://x/y", "file.bin", "models", "", "", "", false⟩ "/r" "" false
      emptyDState).state.heap "f1" = none := by
  refine ⟨by decide, by decide⟩

/-- Witness for the amended C4. -/
theorem download_mkdir_fail_witness :
    ((false = true ∨
      ((DownloadEnv.mk
        ⟨none, fun a _ => a, fun a b c => a ++ "/" ++ b ++ "/" ++ c, fun a => some a,
          fun _ => .error .notExist⟩
        (fun d => d) (fun _ => some "permission denied") none (.ok ⟨200, "200 OK", 5⟩)
        none (fun _ => 1) [] none none).os.stat
        (fullPathOf (DownloadEnv.mk
          ⟨none, fun a _ => a, fun a b c => a ++ "/" ++ b ++ "/" ++ c, fun a => some a,
            fun _ => .error .notExist⟩
          (fun d => d) (fun _ => some "permission denied") none (.ok ⟨200, "200 OK", 5⟩)
          none (fun _ => 1) [] none none)
          ⟨"f1", "http://x/y", "file.bin", "models", "", "", "", false⟩ "/r")).isOk = false)) ∧
    Download (DownloadEnv.mk
        ⟨none, fun a _ => a, fun a b c => a ++ "/" ++ b ++ "/" ++ c, fun a => some a,
          fun _ => .error .notExist⟩
        (fun d => d) (fun _ => some "permission denied") none (.ok ⟨200, "200 OK", 5⟩)
        none (fun _ => 1) [] none none)
      ⟨"f1", "http://x/y", "file.bin", "models", "", "", "", false⟩ "/r" "" false
      emptyDState =
      ⟨.err "failed to create directory: permission denied", emptyDState, [],
        [FsOp.mkdirAll (fullPathOf (DownloadEnv.mk
          ⟨none, fun a _ => a, fun a b c => a ++ "/" ++ b ++ "/" ++ c, fun a => some a,
            fun _ => .error .notExist⟩
          (fun d => d) (fun _ => some "permission denied") none (.ok ⟨200, "200 OK", 5⟩)
          none (fun _ => 1) [] none none)
          ⟨"f1", "http://x/y", "file.bin", "models", "", "", "", false⟩ "/r")], 0, none⟩ :=
  ⟨Or.inr rfl, by
    have := download_mkdir_fail (DownloadEnv.mk
        ⟨none, fun a _ => a, fun a b c => a ++ "/" ++ b ++ "/" ++ c, fun a => some a,
          fun _ => .error .notExist⟩
        (fun d => d) (fun _ => some "permission denied") none (.ok ⟨200, "200 OK", 5⟩)
        none (fun _ => 1) [] none none)
      ⟨"f1", "http://x/y", "file.bin", "models", "", "", "", false⟩ "/r" "" false
      emptyDState "permission denied" (Or.inr rfl) rfl
    simpa using this⟩

/-! ### C6: `GetAllProgress` shares the records it returns -/

/-- C6 (code bug): the map `GetAllProgress` returns is only a shallow copy:
it holds the same `*Progress` pointers, so a later `updateProgress` — which
mutates the pointed-to record in place — changes the values visible through
the already-returned map.  Here a snapshot taken right after registration
shows `downloaded = 0`, and after a single later mutation the *same*
snapshot map shows `downloaded = 5`. -/
theorem getAllProgress_not_snapshot :
    (viewSnapshot (GetAllProgress (emptyDState.register "f1" "file.bin"))
      (emptyDState.register "f1" "file.bin").heap "f1").map (fun p => p.downloaded) =
        some 0 ∧
    (viewSnapshot (GetAllProgress (emptyDState.register "f1" "file.bin"))
      (((emptyDState.register "f1" "file.bin").updateProgress "f1"
        (fun p => { p with downloaded := 5 })).1).heap "f1").map (fun p => p.downloaded) =
        some 5 := by
  refine ⟨by decide, by decide⟩

/-! ### C2: completion and rename -/

def sumBytes (body : List ChunkRead) : Nat := (body.map (fun c => c.n)).sum

/-- A body stream that ends without error: every chunk write succeeds,
every read continues until a final EOF. -/
def cleanBody : List ChunkRead → Bool
  | [] => false
  | [c] => decide (c.writeErr = none) && decide (c.rend = ReadEnd.eof)
  | c :: rest => decide (c.writeErr = none) && decide (c.rend = ReadEnd.cont) && cleanBody rest

theorem downloadLoop_clean (env : DownloadEnv) (id tmpPath : String) (total : Int)
    (hcancel : env.cancelAt = none) :
    ∀ (body : List ChunkRead), cleanBody body = true → ∀ (i : Nat) (st : LoopSt),
      ∃ st2 : LoopSt,
        downloadLoop env id tmpPath total i body st =
          .done (st.downloaded + sumBytes body) st2 ∧
        ((st.state.view id).isSome = true → (st2.state.view id).isSome = true) := by
  intro body
  induction body with
  | nil => intro hclean; simp [cleanBody] at hclean
  | cons c rest ih =>
    intro hclean i st
    have hnc : cancelFired env.cancelAt i = false := by
      rw [hcancel]; rfl
    cases rest with
    | nil =>
      have hclean2 := hclean
      simp only [cleanBody, Bool.and_eq_true, decide_eq_true_eq] at hclean2
      obtain ⟨hw, he⟩ := hclean2
      have hs : sumBytes [c] = c.n := by simp [sumBytes]
      rw [hs, downloadLoop, hnc]
      simp only [Bool.false_eq_true, if_false]
      by_cases hn : c.n > 0
      · simp only [hn, if_true, hw, he]
        refine ⟨_, rfl, ?_⟩
        intro hsome
        rw [view_applyUpdate]
        simp only [Option.isSome_map']
        exact hsome
      · have hn0 : c.n = 0 := by omega
        simp only [hn, if_false, he]
        exact ⟨st, by simp [hn0], fun h => h⟩
    | cons c2 rest2 =>
      have hclean2 := hclean
      simp only [cleanBody, Bool.and_eq_true, decide_eq_true_eq] at hclean2
      obtain ⟨⟨hw, hcont⟩, hrest⟩ := hclean2
      have hs : sumBytes (c :: c2 :: rest2) = c.n + sumBytes (c2 :: rest2) := by
        simp [sumBytes]
      rw [hs, downloadLoop, hnc]
      simp only [Bool.false_eq_true, if_false]
      by_cases hn : c.n > 0
      · simp only [hn, if_true, hw, hcont]
        obtain ⟨st2, hst2, hview⟩ := ih hrest (i + 1)
          (applyUpdate
            ⟨st.downloaded + c.n, st.state, st.trace,
              st.fsOps ++ [FsOp.writeChunk tmpPath c.n]⟩ id
            (fun p =>
              { p with
                  downloaded := ((st.downloaded + c.n : Nat) : Int),
                  percent := if total > 0 then
                    ((st.downloaded + c.n : Nat) : Rat) / (total : Rat) * 100 else 0,
                  speed := if env.elapsedAt i > 0 then
                    ((st.downloaded + c.n : Nat) : Rat) / env.elapsedAt i else 0 }))
        refine ⟨st2, ?_, ?_⟩
        · rw [hst2]
          congr 1
          simp only [applyUpdate]
          omega
        · intro hsome
          apply hview
          rw [view_applyUpdate]
          simp only [Option.isSome_map']
          exact hsome
      · have hn0 : c.n = 0 := by omega
        simp only [hn, if_false, hcont]
        obtain ⟨st2, hst2, hview⟩ := ih hrest (i + 1) st
        refine ⟨st2, ?_, hview⟩
        rw [hst2, hn0]
        congr 1
        omega

/-- C2: for a transfer that is not skipped by the existing-file check,
whose directory creation, request construction, HTTP round trip (status
200) and file creation all succeed, that is never cancelled, and whose
body stream ends without error, `Download` behaves as claimed (lines
462-481): when the rename succeeds the last filesystem operation renames
`<fullPath>.tmp` onto `fullPath`, the call returns ok, and the record has
status `"completed"`, percent 100 and downloaded equal to the total bytes
written; when the rename fails with message `m` the last filesystem
operation removes the temporary file and the record has status `"error"`
with error message `m`. -/
theorem download_completion (env : DownloadEnv) (entry : FileEntry)
    (rootDir token : String) (force : Bool) (s0 : DState)
    (hskip : (!force && (env.os.stat (fullPathOf env entry rootDir)).isOk) = false)
    (hmk : env.mkdirErr (env.dirOf (fullPathOf env entry rootDir)) = none)
    (hreq : env.newRequestErr = none)
    (resp : HttpResponse) (hdo : env.doResult = .ok resp)
    (hcode : resp.statusCode = 200)
    (hcreate : env.createErr = none)
    (hcancel : env.cancelAt = none)
    (hclean : cleanBody env.body = true) :
    (env.renameErr = none →
      (Download env entry rootDir token force s0).res = DlResult.ok ∧
      (Download env entry rootDir token force s0).fsOps.getLast? =
        some (FsOp.renameFile (fullPathOf env entry rootDir ++ ".tmp")
          (fullPathOf env entry rootDir)) ∧
      statusOf (Download env entry rootDir token force s0).state entry.id =
        some "completed" ∧
      ((Download env entry rootDir token force s0).state.view entry.id).map
        (fun p => p.percent) = some 100 ∧
      ((Download env entry rootDir token force s0).state.view entry.id).map
        (fun p => p.downloaded) = some ((sumBytes env.body : Nat) : Int)) ∧
    (∀ m : String, env.renameErr = some m →
      (Download env entry rootDir token force s0).res = DlResult.err m ∧
      (Download env entry rootDir token force s0).fsOps.getLast? =
        some (FsOp.removeFile (fullPathOf env entry rootDir ++ ".tmp")) ∧
      statusOf (Download env entry rootDir token force s0).state entry.id =
        some "error" ∧
      ((Download env entry rootDir token force s0).state.view entry.id).map
        (fun p => p.error) = some m) := by
  obtain ⟨st2, hst2, hview⟩ := downloadLoop_clean env entry.id
    (fullPathOf env entry rootDir ++ ".tmp") resp.contentLength hcancel
    env.body hclean 0
    ⟨0,
      ((s0.register entry.id entry.fileName).updateProgress entry.id
        (fun p => { p with total := resp.contentLength })).1,
      [s0.register entry.id entry.fileName,
        ((s0.register entry.id entry.fileName).updateProgress entry.id
          (fun p => { p with total := resp.contentLength })).1],
      [FsOp.mkdirAll (env.dirOf (fullPathOf env entry rootDir)),
        FsOp.createFile (fullPathOf env entry rootDir ++ ".tmp")]⟩
  have hsome2 : (st2.state.view entry.id).isSome = true := by
    apply hview
    show ((((s0.register entry.id entry.fileName).updateProgress entry.id
      (fun p => { p with total := resp.contentLength })).1).view entry.id).isSome = true
    rw [view_updateProgress, view_register]
    rfl
  obtain ⟨p2, hp2⟩ := Option.isSome_iff_exists.mp hsome2
  constructor
  · intro hre
    unfold Download
    rw [if_neg (by simp [hskip])]
    simp only [hmk, hreq, hdo, hcode, ne_eq, eq_self_iff_true, not_true, if_false,
      hcreate, hst2, hre]
    refine ⟨trivial, ?_, ?_, ?_, ?_⟩
    · simp [applyUpdate, List.getLast?_concat]
    · simp [statusOf, view_removeCancel, view_applyUpdate, hp2]
    · simp [view_removeCancel, view_applyUpdate, hp2]
    · simp [view_removeCancel, view_applyUpdate, hp2]
  · intro m hre
    unfold Download
    rw [if_neg (by simp [hskip])]
    simp only [hmk, hreq, hdo, hcode, ne_eq, eq_self_iff_true, not_true, if_false,
      hcreate, hst2, hre]
    refine ⟨trivial, ?_, ?_, ?_⟩
    · simp [applyUpdate, List.getLast?_concat]
    · simp [statusOf, view_removeCancel, view_applyUpdate, hp2]
    · simp [view_removeCancel, view_applyUpdate, hp2]

/-- Witness for C2: a clean single-chunk transfer of 5 bytes completes,
renames the temp file last, and ends with status completed, percent 100 and
downloaded 5. -/
theorem download_completion_witness :
    cleanBody (DownloadEnv.mk
        ⟨none, fun a _ => a, fun a b c => a ++ "/" ++ b ++ "/" ++ c, fun a => some a,
          fun _ => .error .notExist⟩
        (fun d => d) (fun _ => none) none (.ok ⟨200, "200 OK", 5⟩) none (fun _ => 1)
        [⟨5, none, ReadEnd.eof⟩] none none).body = true ∧
    ((Download (DownloadEnv.mk
        ⟨none, fun a _ => a, fun a b c => a ++ "/" ++ b ++ "/" ++ c, fun a => some a,
          fun _ => .error .notExist⟩
        (fun d => d) (fun _ => none) none (.ok ⟨200, "200 OK", 5⟩) none (fun _ => 1)
        [⟨5, none, ReadEnd.eof⟩] none none)
      ⟨"f1", "http://x/y", "file.bin", "models", "", "", "", false⟩ "/r" "" false
      emptyDState).res = DlResult.ok ∧
    (Download (DownloadEnv.mk
        ⟨none, fun a _ => a, fun a b c => a ++ "/" ++ b ++ "/" ++ c, fun a => some a,
          fun _ => .error .notExist⟩
        (fun d => d) (fun _ => none) none (.ok ⟨200, "200 OK", 5⟩) none (fun _ => 1)
        [⟨5, none, ReadEnd.eof⟩] none none)
      ⟨"f1", "http://x/y", "file.bin", "models", "", "", "", false⟩ "/r" "" false
      emptyDState).fsOps.getLast? =
      some (FsOp.renameFile (fullPathOf (DownloadEnv.mk
        ⟨none, fun a _ => a, fun a b c => a ++ "/" ++ b ++ "/" ++ c, fun a => some a,
          fun _ => .error .notExist⟩
        (fun d => d) (fun _ => none) none (.ok ⟨200, "200 OK", 5⟩) none (fun _ => 1)
        [⟨5, none, ReadEnd.eof⟩] none none)
        ⟨"f1", "http://x/y", "file.bin", "models", "", "", "", false⟩ "/r" ++ ".tmp")
        (fullPathOf (DownloadEnv.mk
        ⟨none, fun a _ => a, fun a b c => a ++ "/" ++ b ++ "/" ++ c, fun a => some a,
          fun _ => .error .notExist⟩
        (fun d => d) (fun _ => none) none (.ok ⟨200, "200 OK", 5⟩) none (fun _ => 1)
        [⟨5, none, ReadEnd.eof⟩] none none)
        ⟨"f1", "http://x/y", "file.bin", "models", "", "", "", false⟩ "/r")) ∧
    statusOf (Download (DownloadEnv.mk
        ⟨none, fun a _ => a, fun a b c => a ++ "/" ++ b ++ "/" ++ c, fun a => some a,
          fun _ => .error .notExist⟩
        (fun d => d) (fun _ => none) none (.ok ⟨200, "200 OK", 5⟩) none (fun _ => 1)
        [⟨5, none, ReadEnd.eof⟩] none none)
      ⟨"f1", "http://x/y", "file.bin", "models", "", "", "", false⟩ "/r" "" false
      emptyDState).state "f1" = some "completed" ∧
    ((Download (DownloadEnv.mk
        ⟨none, fun a _ => a, fun a b c => a ++ "/" ++ b ++ "/" ++ c, fun a => some a,
          fun _ => .error .notExist⟩
        (fun d => d) (fun _ => none) none (.ok ⟨200, "200 OK", 5⟩) none (fun _ => 1)
        [⟨5, none, ReadEnd.eof⟩] none none)
      ⟨"f1", "http://x/y", "file.bin", "models", "", "", "", false⟩ "/r" "" false
      emptyDState).state.view "f1").map (fun p => p.percent) = some 100 ∧
    ((Download (DownloadEnv.mk
        ⟨none, fun a _ => a, fun a b c => a ++ "/" ++ b ++ "/" ++ c, fun a => some a,
          fun _ => .error .notExist⟩
        (fun d => d) (fun _ => none) none (.ok ⟨200, "200 OK", 5⟩) none (fun _ => 1)
        [⟨5, none, ReadEnd.eof⟩] none none)
      ⟨"f1", "http://x/y", "file.bin", "models", "", "", "", false⟩ "/r" "" false
      emptyDState).state.view "f1").map (fun p => p.downloaded) =
      some ((sumBytes (DownloadEnv.mk
        ⟨none, fun a _ => a, fun a b c => a ++ "/" ++ b ++ "/" ++ c, fun a => some a,
          fun _ => .error .notExist⟩
        (fun d => d) (fun _ => none) none (.ok ⟨200, "200 OK", 5⟩) none (fun _ => 1)
        [⟨5, none, ReadEnd.eof⟩] none none).body : Nat) : Int)) :=
  ⟨by decide,
    (download_completion (DownloadEnv.mk
        ⟨none, fun a _ => a, fun a b c => a ++ "/" ++ b ++ "/" ++ c, fun a => some a,
          fun _ => .error .notExist⟩
        (fun d => d) (fun _ => none) none (.ok ⟨200, "200 OK", 5⟩) none (fun _ => 1)
        [⟨5, none, ReadEnd.eof⟩] none none)
      ⟨"f1", "http://x/y", "file.bin", "models", "", "", "", false⟩ "/r" "" false
      emptyDState rfl rfl rfl ⟨200, "200 OK", 5⟩ rfl rfl rfl rfl (by decide)).1 rfl⟩

/-! ### C3: one-way status transitions -/

/-- The statuses `Download` never leaves once set (within one call). -/
def terminalStatus (st : String) : Bool :=
  decide (st = "completed" ∨ st = "error" ∨ st = "cancelled")

/-- A store step preserves every record whose status is terminal. -/
def stepOK (a b : DState) : Prop :=
  ∀ (id stt : String), statusOf a id = some stt → terminalStatus stt = true →
    statusOf b id = some stt

/-- Store well-formedness: distinct identifiers hold distinct pointers, and
every pointer was previously allocated.  Go guarantees this for the real
store because each `&Progress{...}` allocation is fresh. -/
def WF (s : DState) : Prop :=
  (∀ (id1 id2 : String) (r : Nat),
    s.progress id1 = some r → s.progress id2 = some r → id1 = id2) ∧
  (∀ (id : String) (r : Nat), s.progress id = some r → r < s.nextRef)

theorem WF_empty : WF emptyDState :=
  ⟨fun a b r h => by simp [emptyDState] at h,
   fun a r h => by simp [emptyDState] at h⟩

theorem WF_register (s : DState) (id f : String) (hwf : WF s) :
    WF (s.register id f) := by
  obtain ⟨hinj, hbound⟩ := hwf
  constructor
  · intro a b r ha hb
    simp only [DState.register] at ha hb
    by_cases hae : a = id <;> by_cases hbe : b = id
    · rw [hae, hbe]
    · rw [if_pos hae] at ha
      rw [if_neg hbe] at hb
      injection ha with ha2
      rw [← ha2] at hb
      exact absurd (hbound b s.nextRef hb) (by omega)
    · rw [if_neg hae] at ha
      rw [if_pos hbe] at hb
      injection hb with hb2
      rw [← hb2] at ha
      exact absurd (hbound a s.nextRef ha) (by omega)
    · rw [if_neg hae] at ha
      rw [if_neg hbe] at hb
      exact hinj a b r ha hb
  · intro a r ha
    simp only [DState.register] at ha
    show r < s.nextRef + 1
    by_cases hae : a = id
    · rw [if_pos hae] at ha
      injection ha with ha2
      omega
    · rw [if_neg hae] at ha
      have := hbound a r ha
      omega

theorem WF_update (s : DState) (id : String) (fn : Progress → Progress)
    (hwf : WF s) : WF ((s.updateProgress id fn).1) := by
  cases hp : s.progress id with
  | none =>
    have he : (s.updateProgress id fn).1 = s := by
      simp only [DState.updateProgress, hp]
    rw [he]
    exact hwf
  | some r =>
    cases hh : s.heap r with
    | none =>
      have he : (s.updateProgress id fn).1 = s := by
        simp only [DState.updateProgress, hp, hh]
      rw [he]
      exact hwf
    | some p =>
      have he : (s.updateProgress id fn).1 =
          { s with heap := fun r2 => if r2 = r then some (fn p) else s.heap r2 } := by
        simp only [DState.updateProgress, hp, hh]
      rw [he]
      exact hwf

theorem view_update_other (s : DState) (id id2 : String) (fn : Progress → Progress)
    (hwf : WF s) (hne : id2 ≠ id) :
    ((s.updateProgress id fn).1).view id2 = s.view id2 := by
  cases hp : s.progress id with
  | none =>
    have he : (s.updateProgress id fn).1 = s := by
      simp only [DState.updateProgress, hp]
    rw [he]
  | some r =>
    cases hh : s.heap r with
    | none =>
      have he : (s.updateProgress id fn).1 = s := by
        simp only [DState.updateProgress, hp, hh]
      rw [he]
    | some p =>
      have he : (s.updateProgress id fn).1 =
          { s with heap := fun r2 => if r2 = r then some (fn p) else s.heap r2 } := by
        simp only [DState.updateProgress, hp, hh]
      rw [he]
      show (s.progress id2).bind _ = (s.progress id2).bind s.heap
      cases hp2 : s.progress id2 with
      | none => rfl
      | some r2 =>
        have hrr : r2 ≠ r := by
          intro he2
          rw [he2] at hp2
          exact hne (hwf.1 id2 id r hp2 hp)
        show (if r2 = r then some (fn p) else s.heap r2) = s.heap r2
        rw [if_neg hrr]

theorem stepOK_update (s : DState) (id : String) (fn : Progress → Progress)
    (hwf : WF s)
    (hnt : ∀ stt : String, statusOf s id = some stt → terminalStatus stt = false) :
    stepOK s ((s.updateProgress id fn).1) := by
  intro id2 stt h2 hterm
  by_cases he : id2 = id
  · rw [he] at h2
    rw [hnt stt h2] at hterm
    exact absurd hterm (by simp)
  · unfold statusOf
    rw [view_update_other s id id2 fn hwf he]
    exact h2

theorem statusOf_update_pres (s : DState) (id : String) (fn : Progress → Progress)
    (hfn : ∀ p, (fn p).status = p.status) :
    statusOf ((s.updateProgress id fn).1) id = statusOf s id := by
  unfold statusOf
  rw [view_updateProgress]
  cases s.view id with
  | none => rfl
  | some p => simp [hfn]

theorem statusOf_register (s : DState) (id f : String) :
    statusOf (s.register id f) id = some "downloading" := by
  simp [statusOf, view_register]

theorem chain'_concat_of (t : List DState) (a s2 : DState)
    (hlast : t.getLast? = some a) (hchain : List.Chain' stepOK t)
    (hstep : stepOK a s2) : List.Chain' stepOK (t ++ [s2]) := by
  rw [List.chain'_append]
  refine ⟨hchain, List.chain'_singleton s2, ?_⟩
  intro x hx y hy
  rw [hlast] at hx
  simp only [Option.mem_def, Option.some_inj] at hx
  simp only [List.head?_cons, Option.mem_def, Option.some_inj] at hy
  subst hx
  subst hy
  exact hstep

/-- The loop state carried by each `downloadLoop` outcome. -/
def LoopOut.outSt : LoopOut → LoopSt
  | .done _ st => st
  | .cancelledL st => st
  | .failedL _ st => st
  | .starvedL st => st

theorem downloadLoop_chain (env : DownloadEnv) (id tmpPath : String) (total : Int) :
    ∀ (body : List ChunkRead) (i : Nat) (st : LoopSt),
      WF st.state →
      statusOf st.state id = some "downloading" →
      st.trace.getLast? = some st.state →
      List.Chain' stepOK st.trace →
      List.Chain' stepOK ((downloadLoop env id tmpPath total i body st).outSt).trace ∧
      ∀ (d : Nat) (st2 : LoopSt),
        downloadLoop env id tmpPath total i body st = .done d st2 →
        WF st2.state ∧ statusOf st2.state id = some "downloading" ∧
        st2.trace.getLast? = some st2.state := by
  intro body
  induction body with
  | nil =>
    intro i st hwf hstat hlast hchain
    have hnt : ∀ stt : String,
        statusOf st.state id = some stt → terminalStatus stt = false := by
      intro stt h
      rw [hstat] at h
      injection h with h2
      rw [← h2]
      decide
    rw [downloadLoop]
    by_cases hc : cancelFired env.cancelAt i = true
    · rw [if_pos hc]
      exact ⟨chain'_concat_of st.trace st.state _ hlast hchain
        (stepOK_update st.state id _ hwf hnt),
        fun d st2 h => LoopOut.noConfusion h⟩
    · rw [if_neg hc]
      exact ⟨hchain, fun d st2 h => LoopOut.noConfusion h⟩
  | cons c rest ih =>
    intro i st hwf hstat hlast hchain
    have hnt : ∀ stt : String,
        statusOf st.state id = some stt → terminalStatus stt = false := by
      intro stt h
      rw [hstat] at h
      injection h with h2
      rw [← h2]
      decide
    rw [downloadLoop]
    by_cases hc : cancelFired env.cancelAt i = true
    · rw [if_pos hc]
      exact ⟨chain'_concat_of st.trace st.state _ hlast hchain
        (stepOK_update st.state id _ hwf hnt),
        fun d st2 h => LoopOut.noConfusion h⟩
    · rw [if_neg hc]
      by_cases hn : c.n > 0
      · cases hw : c.writeErr with
        | some m =>
          simp only [hn, if_true, hw]
          exact ⟨chain'_concat_of st.trace st.state _ hlast hchain
            (stepOK_update st.state id _ hwf hnt),
            fun d st2 h => LoopOut.noConfusion h⟩
        | none =>
          cases hr : c.rend with
          | eof =>
            simp only [hn, if_true, hw, hr]
            constructor
            · exact chain'_concat_of st.trace st.state _ hlast hchain
                (stepOK_update st.state id _ hwf hnt)
            · intro d st2 h
              injection h with h1 h2
              rw [← h2]
              refine ⟨WF_update st.state id _ hwf, ?_, List.getLast?_concat _⟩
              refine (statusOf_update_pres st.state id _ ?_).trans hstat
              intro p
              rfl
          | errRead m =>
            simp only [hn, if_true, hw, hr]
            have hstatA : statusOf ((st.state.updateProgress id (fun p =>
                { p with
                    downloaded := ((st.downloaded + c.n : Nat) : Int),
                    percent := if total > 0 then
                      ((st.downloaded + c.n : Nat) : Rat) / (total : Rat) * 100 else 0,
                    speed := if env.elapsedAt i > 0 then
                      ((st.downloaded + c.n : Nat) : Rat) / env.elapsedAt i
                    else 0 })).1) id = some "downloading" := by
              refine (statusOf_update_pres st.state id _ ?_).trans hstat
              intro p
              rfl
            have hntA : ∀ stt : String,
                statusOf ((st.state.updateProgress id (fun p =>
                  { p with
                      downloaded := ((st.downloaded + c.n : Nat) : Int),
                      percent := if total > 0 then
                        ((st.downloaded + c.n : Nat) : Rat) / (total : Rat) * 100 else 0,
                      speed := if env.elapsedAt i > 0 then
                        ((st.downloaded + c.n : Nat) : Rat) / env.elapsedAt i
                      else 0 })).1) id = some stt → terminalStatus stt = false := by
              intro stt h
              rw [hstatA] at h
              injection h with h2
              rw [← h2]
              decide
            constructor
            · refine chain'_concat_of _ _ _ (List.getLast?_concat _) ?_ ?_
              · exact chain'_concat_of st.trace st.state _ hlast hchain
                  (stepOK_update st.state id _ hwf hnt)
              · exact stepOK_update _ id _ (WF_update st.state id _ hwf) hntA
            · intro d st2 h
              exact LoopOut.noConfusion h
          | cont =>
            simp only [hn, if_true, hw, hr]
            refine ih (i + 1) _ (WF_update st.state id _ hwf) ?_
              (List.getLast?_concat _)
              (chain'_concat_of st.trace st.state _ hlast hchain
                (stepOK_update st.state id _ hwf hnt))
            refine (statusOf_update_pres st.state id _ ?_).trans hstat
            intro p
            rfl
      · cases hr : c.rend with
        | eof =>
          simp only [hn, if_false, hr]
          constructor
          · exact hchain
          · intro d st2 h
            injection h with h1 h2
            rw [← h2]
            exact ⟨hwf, hstat, hlast⟩
        | errRead m =>
          simp only [hn, if_false, hr]
          exact ⟨chain'_concat_of st.trace st.state _ hlast hchain
            (stepOK_update st.state id _ hwf hnt),
            fun d st2 h => LoopOut.noConfusion h⟩
        | cont =>
          simp only [hn, if_false, hr]
          exact ih (i + 1) st hwf hstat hlast hchain

/-- C3 (amended): within a single `Download` call on a well-formed store,
the observation trace — the store after each Progress mutation, starting
with the freshly registered record — only makes one-way status moves: every
consecutive pair of trace states preserves any record whose status is
terminal (`"completed"`, `"error"` or `"cancelled"`).  The original claim
additionally asserted that no later `Download` call reusing the identifier
leaves a terminal state; that part is refuted separately: re-registration
(lines 339-346) overwrites the map entry with a fresh record whose status
is `"downloading"`. -/
theorem download_status_oneway (env : DownloadEnv) (entry : FileEntry)
    (rootDir token : String) (force : Bool) (s0 : DState) (hwf : WF s0) :
    List.Chain' stepOK (Download env entry rootDir token force s0).trace := by
  unfold Download
  by_cases hskip : (!force && (env.os.stat (fullPathOf env entry rootDir)).isOk) = true
  · rw [if_pos hskip]
    exact List.chain'_nil
  · rw [if_neg hskip]
    cases hmk : env.mkdirErr (env.dirOf (fullPathOf env entry rootDir)) with
    | some m =>
      simp only [hmk]
      exact List.chain'_nil
    | none =>
      simp only [hmk]
      have hwf1 : WF (s0.register entry.id entry.fileName) :=
        WF_register s0 entry.id entry.fileName hwf
      have hstat1 : statusOf (s0.register entry.id entry.fileName) entry.id =
          some "downloading" := statusOf_register s0 entry.id entry.fileName
      have hnt1 : ∀ stt : String,
          statusOf (s0.register entry.id entry.fileName) entry.id = some stt →
          terminalStatus stt = false := by
        intro stt h
        rw [hstat1] at h
        injection h with h2
        rw [← h2]
        decide
      cases hreq : env.newRequestErr with
      | some m =>
        simp only [hreq]
        exact List.chain'_pair.mpr (stepOK_update _ entry.id _ hwf1 hnt1)
      | none =>
        simp only [hreq]
        cases hdo : env.doResult with
        | error m =>
          simp only [hdo]
          exact List.chain'_pair.mpr (stepOK_update _ entry.id _ hwf1 hnt1)
        | ok resp =>
          simp only [hdo]
          by_cases hcode : resp.statusCode ≠ 200
          · rw [if_pos hcode]
            exact List.chain'_pair.mpr (stepOK_update _ entry.id _ hwf1 hnt1)
          · rw [if_neg hcode]
            cases hcr : env.createErr with
            | some m =>
              simp only [hcr]
              exact List.chain'_pair.mpr (stepOK_update _ entry.id _ hwf1 hnt1)
            | none =>
              simp only [hcr]
              have hwfST : WF (((s0.register entry.id entry.fileName).updateProgress
                  entry.id (fun p => { p with total := resp.contentLength })).1) :=
                WF_update _ entry.id _ hwf1
              have hstatST : statusOf (((s0.register entry.id
                  entry.fileName).updateProgress entry.id
                  (fun p => { p with total := resp.contentLength })).1) entry.id =
                  some "downloading" := by
                refine (statusOf_update_pres _ _ _ ?_).trans hstat1
                intro p
                rfl
              have hchainST : List.Chain' stepOK [s0.register entry.id entry.fileName,
                  ((s0.register entry.id entry.fileName).updateProgress entry.id
                    (fun p => { p with total := resp.contentLength })).1] :=
                List.chain'_pair.mpr (stepOK_update _ entry.id _ hwf1 hnt1)
              obtain ⟨hchainL, hdone⟩ := downloadLoop_chain env entry.id
                (fullPathOf env entry rootDir ++ ".tmp") resp.contentLength env.body 0
                ⟨0,
                  ((s0.register entry.id entry.fileName).updateProgress entry.id
                    (fun p => { p with total := resp.contentLength })).1,
                  [s0.register entry.id entry.fileName,
                    ((s0.register entry.id entry.fileName).updateProgress entry.id
                      (fun p => { p with total := resp.contentLength })).1],
                  [FsOp.mkdirAll (env.dirOf (fullPathOf env entry rootDir)),
                    FsOp.createFile (fullPathOf env entry rootDir ++ ".tmp")]⟩
                hwfST hstatST rfl hchainST
              cases hL : downloadLoop env entry.id
                  (fullPathOf env entry rootDir ++ ".tmp") resp.contentLength 0 env.body
                  ⟨0,
                    ((s0.register entry.id entry.fileName).updateProgress entry.id
                      (fun p => { p with total := resp.contentLength })).1,
                    [s0.register entry.id entry.fileName,
                      ((s0.register entry.id entry.fileName).updateProgress entry.id
                        (fun p => { p with total := resp.contentLength })).1],
                    [FsOp.mkdirAll (env.dirOf (fullPathOf env entry rootDir)),
                      FsOp.createFile (fullPathOf env entry rootDir ++ ".tmp")]⟩ with
              | cancelledL st2 =>
                simp only [hL]
                rw [hL] at hchainL
                exact hchainL
              | failedL m st2 =>
                simp only [hL]
                rw [hL] at hchainL
                exact hchainL
              | starvedL st2 =>
                simp only [hL]
                rw [hL] at hchainL
                exact hchainL
              | done d st2 =>
                simp only [hL]
                rw [hL] at hchainL
                obtain ⟨hwf2, hstat2, hlast2⟩ := hdone d st2 hL
                have hnt2 : ∀ stt : String,
                    statusOf st2.state entry.id = some stt →
                    terminalStatus stt = false := by
                  intro stt h
                  rw [hstat2] at h
                  injection h with h2
                  rw [← h2]
                  decide
                cases hre : env.renameErr with
                | some m =>
                  simp only [hre]
                  exact chain'_concat_of st2.trace st2.state _ hlast2 hchainL
                    (stepOK_update st2.state entry.id _ hwf2 hnt2)
                | none =>
                  simp only [hre]
                  exact chain'_concat_of st2.trace st2.state _ hlast2 hchainL
                    (stepOK_update st2.state entry.id _ hwf2 hnt2)

/-- C3 counterexample: after one `Download` completes `"f1"` (status
`"completed"`, a terminal state), a second `Download` reusing the same
identifier re-registers it, and the very first trace state of the second
run already shows status `"downloading"` again — a terminal state was left. -/
theorem download_status_overwritten :
    statusOf (Download (DownloadEnv.mk
        ⟨none, fun a _ => a, fun a b c => a ++ "/" ++ b ++ "/" ++ c, fun a => some a,
          fun _ => .error .notExist⟩
        (fun d => d) (fun _ => none) none (.ok ⟨200, "200 OK", 5⟩) none (fun _ => 1)
        [⟨5, none, ReadEnd.eof⟩] none none)
      ⟨"f1", "http://x/y", "file.bin", "models", "", "", "", false⟩ "/r" "" false
      emptyDState).state "f1" = some "completed" ∧
    ((Download (DownloadEnv.mk
        ⟨none, fun a _ => a, fun a b c => a ++ "/" ++ b ++ "/" ++ c, fun a => some a,
          fun _ => .error .notExist⟩
        (fun d => d) (fun _ => none) (some "boom") (.ok ⟨200, "200 OK", 5⟩) none
        (fun _ => 1) [⟨5, none, ReadEnd.eof⟩] none none)
      ⟨"f1", "http://x/y", "file.bin", "models", "", "", "", false⟩ "/r" "" true
      (Download (DownloadEnv.mk
        ⟨none, fun a _ => a, fun a b c => a ++ "/" ++ b ++ "/" ++ c, fun a => some a,
          fun _ => .error .notExist⟩
        (fun d => d) (fun _ => none) none (.ok ⟨200, "200 OK", 5⟩) none (fun _ => 1)
        [⟨5, none, ReadEnd.eof⟩] none none)
      ⟨"f1", "http://x/y", "file.bin", "models", "", "", "", false⟩ "/r" "" false
      emptyDState).state).trace.head?).map (fun s => statusOf s "f1") =
      some (some "downloading") := by
  refine ⟨by decide, by decide⟩

/-- Witness for the amended C3: a concrete completed run's trace is a
`stepOK` chain, starting from the well-formed empty store. -/
theorem download_status_oneway_witness :
    WF emptyDState ∧
    List.Chain' stepOK (Download (DownloadEnv.mk
        ⟨none, fun a _ => a, fun a b c => a ++ "/" ++ b ++ "/" ++ c, fun a => some a,
          fun _ => .error .notExist⟩
        (fun d => d) (fun _ => none) none (.ok ⟨200, "200 OK", 5⟩) none (fun _ => 1)
        [⟨5, none, ReadEnd.eof⟩] none none)
      ⟨"f1", "http://x/y", "file.bin", "models", "", "", "", false⟩ "/r" "" false
      emptyDState).trace :=
  ⟨WF_empty, download_status_oneway _ _ "/r" "" false emptyDState WF_empty⟩
